import Mathlib

set_option maxRecDepth 100000

/-!
Verification development for the obsidian-habit-notes tracker core.

Text is modelled as `List Char` (JS strings are char sequences). JS numbers
are modelled exactly: an integer result is an `Int`, and a finite non-integer
result is kept as a canonical scaled decimal `mant * 10 ^ exp` with
`exp < 0` and `mant` not divisible by 10. Floating-point rounding,
overflow to Infinity on huge exponents, and exponent-notation printing are
idealized away; no theorem below depends on those corners.

Maps (`Record`, `Map`) are modelled as association lists with
update-in-place-or-append assignment, which matches JS object / Map key
semantics including iteration order.
-/

/- §1 Characters and small text utilities -/

/-- Left-brace character (kept out of string literals). -/
def lbrace : Char := Char.ofNat 123

/-- Right-brace character. -/
def rbrace : Char := Char.ofNat 125

/-- Single-quote character. -/
def squote : Char := Char.ofNat 39

/-- Double-quote character. -/
def dquote : Char := '"'

/-- Backslash character. -/
def bslash : Char := '\\'

/-- The whitespace class of JS `\s` / `String.trim`, restricted to its
ASCII members (the Unicode space members are not exercised here). -/
def isWsB (c : Char) : Bool :=
  c = ' ' || c = '\t' || c = '\n' || c = '\r' || c = Char.ofNat 11 || c = Char.ofNat 12

/-- JS `String.prototype.trim`: drop leading and trailing whitespace. -/
def jsTrim (s : List Char) : List Char :=
  ((s.dropWhile isWsB).reverse.dropWhile isWsB).reverse

/-- Association-list lookup (JS object property read / `Map.get`). -/
def lookupAssoc {α : Type} : List (List Char × α) → List Char → Option α
  | [], _ => none
  | (k, v) :: rest, key => if k = key then some v else lookupAssoc rest key

/-- Association-list assignment (JS `obj[k] = v` / `Map.set`): an existing
key keeps its position, a new key is appended at the end. -/
def setAssoc {α : Type} : List (List Char × α) → List Char → α → List (List Char × α)
  | [], key, v => [(key, v)]
  | (k, w) :: rest, key, v =>
      if k = key then (key, v) :: rest else (k, w) :: setAssoc rest key v

/-- Association-list key deletion (JS `Map.delete`): removes the first
(and, with unique keys, only) binding of the key. -/
def delAssoc {α : Type} : List (List Char × α) → List Char → List (List Char × α)
  | [], _ => []
  | (k, w) :: rest, key => if k = key then rest else (k, w) :: delAssoc rest key

/-- JS `String.prototype.split("\n")`: split into newline-separated pieces;
a trailing newline yields a final empty piece. -/
def splitLines : List Char → List (List Char)
  | [] => [[]]
  | c :: rest =>
      let r := splitLines rest
      if c = '\n' then [] :: r
      else
        match r with
        | l :: ls => (c :: l) :: ls
        | [] => [[c]]

/-- Lexicographic comparison of char lists by code point, the order used by
JS `Array.prototype.sort()` with the default comparator. -/
def lexLeB : List Char → List Char → Bool
  | [], _ => true
  | _ :: _, [] => false
  | a :: as, b :: bs => if a < b then true else if b < a then false else lexLeB as bs

/-- JS `Array.sort()` on string keys: any sort under `lexLeB` (keys in the
ledger are pairwise distinct, so the result is uniquely determined). -/
def sortKeys (ks : List (List Char)) : List (List Char) :=
  List.insertionSort (fun a b => lexLeB a b = true) ks

/-- First-match replacement scan of JS `String.prototype.replace(/pat/g, rep)`
on plain-text patterns: left-to-right, non-overlapping. -/
def replaceAllF : Nat → List Char → List Char → List Char → List Char
  | 0, _, _, s => s
  | fuel + 1, pat, rep, s =>
      match s with
      | [] => []
      | c :: rest =>
          if pat <+: s then rep ++ replaceAllF fuel pat rep (s.drop pat.length)
          else c :: replaceAllF fuel pat rep rest

/-- Global plain-text replacement (see `replaceAllF`). -/
def replaceAll (pat rep s : List Char) : List Char :=
  replaceAllF s.length pat rep s

/- §2 JS number coercion model -/

/-- Decimal digit test (spelled as the ten cases so that case analysis is
elementary). -/
def isDigitB (c : Char) : Bool :=
  c = '0' || c = '1' || c = '2' || c = '3' || c = '4' ||
  c = '5' || c = '6' || c = '7' || c = '8' || c = '9'

/-- Value of a decimal digit character. -/
def digitVal (c : Char) : Nat := c.toNat - 48

/-- Value of a decimal digit string. -/
def digitsVal (ds : List Char) : Nat :=
  ds.foldl (fun a c => 10 * a + digitVal c) 0

/-- Digit character for `n < 10`. -/
def digitChar (n : Nat) : Char := Char.ofNat (48 + n)

/-- Decimal rendering of a natural number (JS number-to-string for ints),
driven by explicit fuel so that it reduces in the kernel. -/
def natToCharsF : Nat → Nat → List Char
  | 0, _ => []
  | fuel + 1, n =>
      if n < 10 then [digitChar n]
      else natToCharsF fuel (n / 10) ++ [digitChar (n % 10)]

/-- Decimal rendering of a natural number. -/
def natToChars (n : Nat) : List Char := natToCharsF (n + 1) n

/-- Decimal rendering of an integer (JS `${n}` for integral numbers). -/
def intToChars (n : Int) : List Char :=
  if n < 0 then '-' :: natToChars n.natAbs else natToChars n.natAbs

/-- Result of JS `Number(string)`: a finite integer, a finite non-integer
(kept as canonical scaled decimal `mant * 10 ^ exp`, `exp < 0`,
`¬ 10 ∣ mant`), an infinity, or NaN. -/
inductive JsNumV : Type where
  | fin (n : Int)
  | finNonInt (mant : Int) (exp : Int)
  | posInf
  | negInf
  | nan
deriving DecidableEq

/-- Strip factors of 10 from the mantissa into the exponent (canonicalizes
a scaled decimal); fuel bounds the loop for kernel reduction. -/
def stripTens : Nat → Int → Int → Int × Int
  | 0, m, e => (m, e)
  | fuel + 1, m, e =>
      if m ≠ 0 ∧ m.emod 10 = 0 then stripTens fuel (m.ediv 10) (e + 1) else (m, e)

/-- Build a finite JS number from sign, decimal mantissa and exponent. -/
def mkJsNum (neg : Bool) (mant : Nat) (exp : Int) : JsNumV :=
  let m : Int := if neg then -(mant : Int) else (mant : Int)
  let p := stripTens (mant + 1) m exp
  if p.1 = 0 then .fin 0
  else if 0 ≤ p.2 then .fin (p.1 * (10 : Int) ^ p.2.toNat)
  else .finNonInt p.1 p.2

/-- Split an optional leading sign; `true` means negative. -/
def signSplit : List Char → Bool × List Char
  | [] => (false, [])
  | c :: rest =>
      if c = '-' then (true, rest)
      else if c = '+' then (false, rest)
      else (false, c :: rest)

/-- Digit value in a given radix, for the `0x` / `0o` / `0b` forms. -/
def radixDigitVal (radix : Nat) (c : Char) : Option Nat :=
  let v : Option Nat :=
    if isDigitB c then some (digitVal c)
    else if 'a' ≤ c && c ≤ 'f' then some (c.toNat - 87)
    else if 'A' ≤ c && c ≤ 'F' then some (c.toNat - 55)
    else none
  match v with
  | some n => if n < radix then some n else none
  | none => none

/-- Value of a nonempty all-valid digit string in a radix. -/
def radixDigitsVal (radix : Nat) : List Char → Option Nat
  | [] => none
  | ds =>
      ds.foldl
        (fun acc c =>
          match acc, radixDigitVal radix c with
          | some a, some v => some (radix * a + v)
          | _, _ => none)
        (some 0)

/-- Decimal-literal part of JS `Number(string)`:
`digits [. digits] [e/E [sign] digits]` or `. digits [exp]`. -/
def parseDecNum (neg : Bool) (u : List Char) : JsNumV :=
  let ds := u.takeWhile isDigitB
  let r1 := u.drop ds.length
  let fr : List Char × List Char :=
    match r1 with
    | '.' :: rest => (rest.takeWhile isDigitB, (rest.takeWhile isDigitB, rest).2.drop (rest.takeWhile isDigitB).length)
    | _ => ([], r1)
  let fs := fr.1
  let r2 := fr.2
  if ds = [] ∧ fs = [] then .nan
  else
    let mant := digitsVal (ds ++ fs)
    let baseExp : Int := -(fs.length : Int)
    match r2 with
    | [] => mkJsNum neg mant baseExp
    | e :: rest =>
        if e = 'e' ∨ e = 'E' then
          let sp := signSplit rest
          let eds := sp.2.takeWhile isDigitB
          if eds = [] ∨ sp.2.drop eds.length ≠ [] then .nan
          else
            mkJsNum neg mant
              (baseExp + (if sp.1 then -(digitsVal eds : Int) else (digitsVal eds : Int)))
        else .nan

/-- Radix-prefix test: `0x`, `0X`, `0b`, `0B`, `0o`, `0O`. -/
def hasRadixPrefix : List Char → Bool
  | c :: x :: _ =>
      c = '0' && (x = 'x' || x = 'X' || x = 'b' || x = 'B' || x = 'o' || x = 'O')
  | _ => false

/-- Radix selected by the prefix character. -/
def radixOf (x : Char) : Nat :=
  if x = 'x' ∨ x = 'X' then 16 else if x = 'b' ∨ x = 'B' then 2 else 8

/-- JS `Number(string)` (the ToNumber coercion on strings): trims
whitespace, accepts the empty string as 0, radix-prefixed integers,
`Infinity`, and decimal literals; everything else is NaN. -/
def jsNumberEval (v : List Char) : JsNumV :=
  let t := jsTrim v
  if t = [] then .fin 0
  else if hasRadixPrefix t then
    match radixDigitsVal (radixOf (t.getD 1 ' ')) (t.drop 2) with
    | some n => .fin n
    | none => .nan
  else
    let sp := signSplit t
    if sp.2 = "Infinity".toList then if sp.1 then .negInf else .posInf
    else parseDecNum sp.1 sp.2

/-- `Number.isFinite` on a `Number(string)` result. -/
def jsIsFinite : JsNumV → Bool
  | .fin _ => true
  | .finNonInt _ _ => true
  | _ => false

/- §3 Ledger values -/

/-- A ledger value: a number (integral, or canonical non-integral scaled
decimal) or a string. -/
inductive TValue : Type where
  | num (n : Int)
  | numNonInt (mant : Int) (exp : Int)
  | str (s : List Char)
deriving DecidableEq

/-- src `parseMaybeNumber`: `Number(v)` if it is finite, else the string. -/
def parseMaybeNumber (v : List Char) : TValue :=
  match jsNumberEval v with
  | .fin n => .num n
  | .finNonInt m e => .numNonInt m e
  | _ => .str v

/-- Decimal rendering of a canonical non-integral scaled decimal
(`JS` prints such exact values as `intpart.fracpart`). -/
def nonIntChars (mant : Int) (exp : Int) : List Char :=
  let ds := natToChars mant.natAbs
  let k := (-exp).toNat
  let withPoint :=
    if k < ds.length then ds.take (ds.length - k) ++ '.' :: ds.drop (ds.length - k)
    else '0' :: '.' :: (List.replicate (k - ds.length) '0') ++ ds
  if mant < 0 then '-' :: withPoint else withPoint

/-- JS `${value}` rendering of a numeric ledger value. -/
def numValueChars : TValue → List Char
  | .num n => intToChars n
  | .numNonInt m e => nonIntChars m e
  | .str s => s

/- §4 Ledger codec (TrackerFileService.parseFrontmatterData / formatDataToYaml) -/

/-- The string-value escaping of src `formatDataToYaml`. The source applies
four sequential global replaces (`\` to `\\`, `"` to `\"`, newline to `\n`,
carriage return to `\r`); because the later patterns do not occur in the
text inserted by the earlier ones, the composition equals this single pass. -/
def escapeStr : List Char → List Char
  | [] => []
  | c :: rest =>
      (if c = bslash then [bslash, bslash]
       else if c = dquote then [bslash, dquote]
       else if c = '\n' then [bslash, 'n']
       else if c = '\r' then [bslash, 'r']
       else [c]) ++ escapeStr rest

/-- Serialized text of one ledger value: quoted-and-escaped for strings,
bare for numbers. -/
def entryValueText : TValue → List Char
  | .str s => dquote :: (escapeStr s ++ [dquote])
  | other => numValueChars other

/-- One serialized ledger line `  "key": value` without its newline. -/
def entryLineCore (k : List Char) (v : TValue) : List Char :=
  ' ' :: ' ' :: dquote :: (k ++ dquote :: ':' :: ' ' :: entryValueText v)

/-- One serialized ledger line with trailing newline. -/
def entryLine (k : List Char) (v : TValue) : List Char :=
  entryLineCore k v ++ ['\n']

/-- src `TrackerFileService.formatDataToYaml`: empty map becomes the
`data: \x7b\x7d` sentinel; otherwise one line per entry in ascending
(lexicographic) key order. -/
def formatDataToYaml (data : List (List Char × TValue)) : List Char :=
  if data = [] then "data: ".toList ++ [lbrace, rbrace, '\n']
  else
    "data:\n".toList ++
      (sortKeys (data.map Prod.fst)).flatMap
        (fun k => entryLine k ((lookupAssoc data k).getD (.num 0)))

/-- Capture of the regex group `(?:\s+[^\n]+\n?)*`: greedy repetition of
whitespace, then non-newline characters, then an optional newline. When an
iteration's whitespace run is followed by a newline or the end of input,
the engine backtracks inside the run; a run whose tail after its last
newline is nonempty and shorter than the run is then consumed (this corner
only ever swallows trailing whitespace, which the line parser skips). -/
def captureLines : Nat → List Char → List Char
  | 0, _ => []
  | fuel + 1, cs =>
      let w := cs.takeWhile isWsB
      if w = [] then []
      else
        let r := cs.drop w.length
        let l := r.takeWhile (fun c => c ≠ '\n')
        if l ≠ [] then
          let afterL := r.drop l.length
          match afterL with
          | '\n' :: rest => w ++ l ++ '\n' :: captureLines fuel rest
          | _ => w ++ l ++ captureLines fuel afterL
        else
          let s := (w.reverse.takeWhile (fun c => c ≠ '\n')).reverse
          if s ≠ [] ∧ s.length < w.length then
            match r with
            | '\n' :: rest => w ++ '\n' :: captureLines fuel rest
            | _ => w
          else []

/-- Index of the last newline in a char list, if any. -/
def lastNewlinePos (w : List Char) : Option Nat :=
  match (w.reverse.takeWhile (fun c => c ≠ '\n')).length, w.length with
  | tail, len => if tail < len then some (len - tail - 1) else none

/-- Attempt of the regex `data:\s*(?:\{\}|(?:\n((?:\s+[^\n]+\n?)*)))` at a
position directly after the literal `data:`. The greedy `\s*` backtracks
from its longest run: the brace alternative can only fire at the full run
(braces are not whitespace), and the newline alternative fires at the last
newline inside the run. Returns the capture group (`none` for the brace
alternative) and the number of characters consumed after `data:`. -/
def matchAfterData (rest : List Char) : Option (Option (List Char) × Nat) :=
  let w := rest.takeWhile isWsB
  let r := rest.drop w.length
  if [lbrace, rbrace] <+: r then some (none, w.length + 2)
  else
    match lastNewlinePos w with
    | some k =>
        let cap := captureLines (rest.drop (k + 1)).length (rest.drop (k + 1))
        some (some cap, k + 1 + cap.length)
    | none => none

/-- JS `str.match(dataRegex)`, returning the capture group together with the
start index and full length of the first match (the engine scans candidate
start positions left to right). -/
def findDataMatchAux : Nat → List Char → Option (Option (List Char) × Nat × Nat)
  | _, [] => none
  | pos, c :: rest =>
      if "data:".toList <+: (c :: rest) then
        match matchAfterData ((c :: rest).drop 5) with
        | some (cap, consumed) => some (cap, pos, 5 + consumed)
        | none => findDataMatchAux (pos + 1) rest
      else findDataMatchAux (pos + 1) rest

/-- First match of the data-section regex in a frontmatter string. -/
def findDataMatch (fm : List Char) : Option (Option (List Char) × Nat × Nat) :=
  findDataMatchAux 0 fm

/-- One-position test of the empty-sentinel regex: `data:` here, then a
whitespace run, then `\x7b\x7d` (the braces are not whitespace, so only
the position after the maximal run can start them). -/
def sentinelAt (cs : List Char) : Bool :=
  decide ("data:".toList <+: cs) &&
    decide ([lbrace, rbrace] <+:
      ((cs.drop 5).drop ((cs.drop 5).takeWhile isWsB).length))

/-- JS test of the sentinel regex anywhere in the string. -/
def containsSentinel : List Char → Bool
  | [] => false
  | c :: rest => sentinelAt (c :: rest) || containsSentinel rest

/-- Matcher for `^["']([^"']+)["']\s*:\s*(.+)$` on a (trimmed) line: an
opening quote, a nonempty run free of either quote character, a closing
quote (either kind), optional whitespace, a colon, and a nonempty rest.
The raw rest is returned; the caller trims it, which coincides with the
backtracking split between the greedy `\s*` and `(.+)`. -/
def quotedKeyMatch (t : List Char) : Option (List Char × List Char) :=
  match t with
  | q0 :: rest =>
      if q0 = dquote ∨ q0 = squote then
        let k := rest.takeWhile (fun c => c ≠ dquote ∧ c ≠ squote)
        if k = [] then none
        else
          match rest.drop k.length with
          | _ :: rest2 =>
              match rest2.dropWhile isWsB with
              | ':' :: rest3 => if rest3 = [] then none else some (k, rest3)
              | _ => none
          | [] => none
      else none
  | [] => none

/-- Matcher for `^([^:]+?)\s*:\s*(.+)$` on a (trimmed) line: a nonempty
colon-free prefix, the first colon, and a nonempty rest. -/
def noQuotesMatch (t : List Char) : Option (List Char × List Char) :=
  let k := t.takeWhile (fun c => c ≠ ':')
  if k = [] then none
  else
    match t.drop k.length with
    | ':' :: rest => if rest = [] then none else some (k, rest)
    | _ => none

/-- Quote stripping and unescaping applied to a parsed value in
src `parseFrontmatterData`: if the value starts and ends with a quote,
drop the ends (JS `slice(1, -1)`, which maps a single quote character to
the empty string) and reverse the two escapes `\"` and `\'`. -/
def stripQuoteUnescape (v : List Char) : List Char :=
  if (v.head? = some dquote ∧ v.getLast? = some dquote) ∨
     (v.head? = some squote ∧ v.getLast? = some squote) then
    replaceAll [bslash, squote] [squote]
      (replaceAll [bslash, dquote] [dquote] ((v.drop 1).dropLast))
  else v

/-- Per-line body of the `forEach` in src `parseFrontmatterData`. -/
def processLine (data : List (List Char × TValue)) (line : List Char) :
    List (List Char × TValue) :=
  let t := jsTrim line
  if t = [] then data
  else if t.head? = some '#' then data
  else if t = [lbrace, rbrace] then data
  else
    match quotedKeyMatch t with
    | some (k, vraw) =>
        setAssoc data (jsTrim k) (parseMaybeNumber (stripQuoteUnescape (jsTrim vraw)))
    | none =>
        match noQuotesMatch t with
        | some (k, vraw) =>
            setAssoc data (jsTrim k) (parseMaybeNumber (stripQuoteUnescape (jsTrim vraw)))
        | none => data

/-- src `TrackerFileService.parseFrontmatterData`. -/
def parseFrontmatterData (frontmatter : List Char) : List (List Char × TValue) :=
  match findDataMatch frontmatter with
  | none => []
  | some (cap, _, _) =>
      if containsSentinel frontmatter then []
      else
        match cap with
        | none => []
        | some dataContent =>
            if dataContent = [] then []
            else (splitLines dataContent).foldl processLine []

/- §5 Write path (TrackerFileService.writeLogLine) -/

/-- Error raised by the write path. Modelled from the spec: the
`ERROR_MESSAGES.NO_FRONTMATTER` constant lives in the constants module,
which is not under src/; the spec calls it the "missing metadata block"
condition, so the message text is abstracted into one constructor. -/
inductive WriteError : Type where
  | noFrontmatter
deriving DecidableEq

/-- Index of the first occurrence of `pat` as a prefix of a suffix. -/
def findPrefixIdx (pat : List Char) : Nat → List Char → Option Nat
  | pos, s =>
      if pat <+: s then some pos
      else
        match s with
        | [] => none
        | _ :: rest => findPrefixIdx pat (pos + 1) rest

/-- Match of the anchored frontmatter regex (three dashes, newline, lazy
any-character group, newline, three dashes) on a document: the document
must start with `---` and a newline; the lazy group captures the shortest
prefix followed by a newline and `---`. Returns the captured frontmatter
and the text after the whole match. -/
def extractFrontmatter (content : List Char) : Option (List Char × List Char) :=
  if "---\n".toList <+: content then
    let rest := content.drop 4
    match findPrefixIdx "\n---".toList 0 rest with
    | some i => some (rest.take i, content.drop (4 + i + 4))
    | none => none
  else none

/-- The `dataYaml.endsWith("\n") ? dataYaml.slice(0, -1) : dataYaml` step. -/
def dropTrailingNl (s : List Char) : List Char :=
  if s.getLast? = some '\n' then s.dropLast else s

/-- JS `String.prototype.trimEnd`. -/
def trimEndWs (s : List Char) : List Char :=
  (s.reverse.dropWhile isWsB).reverse

/-- src `TrackerFileService.writeLogLine`, as a pure document
transformation: read the document text, require a frontmatter block,
decode the ledger, assign the (numerically coerced) value under the date
key, re-encode, splice the new data section over the first data-regex
match of the trimmed frontmatter (or append one), restore a trailing
newline, and rebuild the document. The host write and cache invalidation
are represented by returning the new text; the error path performs no
write. -/
def writeLogLine (content dateIso value : List Char) :
    Except WriteError (List Char) :=
  match extractFrontmatter content with
  | none => .error .noFrontmatter
  | some (fm, body) =>
      let data := parseFrontmatterData fm
      let data2 := setAssoc data dateIso (parseMaybeNumber value)
      let dataYaml := formatDataToYaml data2
      let nfm0 := jsTrim fm
      let nfm1 :=
        match findDataMatch nfm0 with
        | some (_, start, len) =>
            nfm0.take start ++ dropTrailingNl dataYaml ++ nfm0.drop (start + len)
        | none => nfm0 ++ '\n' :: trimEndWs dataYaml
      let nfm2 := if nfm1.getLast? = some '\n' then nfm1 else nfm1 ++ ['\n']
      .ok ("---\n".toList ++ nfm2 ++ "---".toList ++ body)

/-- The stored document after a `writeLogLine` call: the new text on
success, the unchanged text on the error path (no write happens). -/
def writeLogLineApply (content dateIso value : List Char) : List Char :=
  match writeLogLine content dateIso value with
  | .ok c => c
  | .error _ => content

/-- Check a predicate on the success payload of a write result. -/
def okSatisfies (p : List Char → Bool) : Except WriteError (List Char) → Bool
  | .ok c => p c
  | .error _ => false

/- §6 Tracker type header (TrackerFileService.getFileTypeFromFrontmatter) -/

/-- The tracker-type enum value `good-habit`. -/
def trackerTypeGood : List Char := "good-habit".toList

/-- The tracker-type enum value `bad-habit`. -/
def trackerTypeBad : List Char := "bad-habit".toList

/-- Modelled from the spec: the closed TrackerType enum (the constants
module is not under src/); the spec lists good-habit, bad-habit, number,
plusminus, rating, text, scale. -/
def trackerTypeStrings : List (List Char) :=
  [trackerTypeGood, trackerTypeBad, "number".toList, "plusminus".toList,
   "rating".toList, "text".toList, "scale".toList]

/-- Character class `[^"'\s\n]` of the type-line regex. -/
def validTypeChar (c : Char) : Bool :=
  !(c = dquote || c = squote || isWsB c)

/-- Attempt of `type:\s*["']?([^"'\s\n]+)["']?` at one position: the
literal `type:`, a greedy whitespace run (which may cross lines), an
optional quote, and a nonempty run of the value class. If the first
character after the run and optional quote cannot start the class the
whole attempt fails (backtracking into the whitespace run cannot help,
since whitespace is excluded from the class). -/
def tryTypeMatch (cs : List Char) : Option (List Char) :=
  if "type:".toList <+: cs then
    let rest := (cs.drop 5).dropWhile isWsB
    match rest with
    | c :: r2 =>
        if c = dquote ∨ c = squote then
          let run := r2.takeWhile validTypeChar
          if run = [] then none else some run
        else
          let run := (c :: r2).takeWhile validTypeChar
          if run = [] then none else some run
    | [] => none
  else none

/-- Scan of the multiline-anchored type regex: candidate start positions
are the string start and each position after a newline. -/
def typeCaptureAux : Bool → List Char → Option (List Char)
  | _, [] => none
  | atStart, c :: rest =>
      match (if atStart then tryTypeMatch (c :: rest) else none) with
      | some t => some t
      | none => typeCaptureAux (c = '\n') rest

/-- First match capture of `/^type:\s*["']?([^"'\s\n]+)["']?/m`. -/
def typeCapture (fm : List Char) : Option (List Char) :=
  typeCaptureAux true fm

/-- The `mode` computed by src `getFileTypeFromFrontmatter`: the trimmed
raw capture of the type line when it matches, `good-habit` when the
frontmatter block or the type line is missing. -/
def getFileModeFromContent (content : List Char) : List Char :=
  match extractFrontmatter content with
  | some (fm, _) =>
      match typeCapture fm with
      | some t => jsTrim t
      | none => trackerTypeGood
  | none => trackerTypeGood

/- §7 Calendar dates and the DateService model -/

/-- Gregorian leap-year rule. -/
def isLeapYear (y : Int) : Bool :=
  (y.emod 4 = 0 && y.emod 100 ≠ 0) || y.emod 400 = 0

/-- Days in a month of a given year. -/
def daysInMonth (y : Int) (m : Nat) : Nat :=
  if m = 2 then (if isLeapYear y then 29 else 28)
  else if m = 4 ∨ m = 6 ∨ m = 9 ∨ m = 11 then 30
  else 31

/-- Civil date to epoch-day number (days since 1970-01-01, Gregorian;
the standard era-based algorithm with floor division). -/
def daysFromCivil (y : Int) (m d : Nat) : Int :=
  let yAdj : Int := y - (if m ≤ 2 then 1 else 0)
  let era : Int := yAdj.ediv 400
  let yoe : Int := yAdj - era * 400
  let mp : Int := (m : Int) + (if (m : Int) > 2 then -3 else 9)
  let doy : Int := (153 * mp + 2).ediv 5 + (d : Int) - 1
  let doe : Int := yoe * 365 + yoe.ediv 4 - yoe.ediv 100 + doy
  era * 146097 + doe - 719468

/-- Epoch-day number to civil date (inverse of `daysFromCivil`). -/
def civilFromDays (z : Int) : Int × Nat × Nat :=
  let z' := z + 719468
  let era := z'.ediv 146097
  let doe := z' - era * 146097
  let yoe := (doe - doe.ediv 1460 + doe.ediv 36524 - doe.ediv 146096).ediv 365
  let doy := doe - (365 * yoe + yoe.ediv 4 - yoe.ediv 100)
  let mp := (5 * doy + 2).ediv 153
  let d := doy - (153 * mp + 2).ediv 5 + 1
  let m := if mp < 10 then mp + 3 else mp - 9
  (yoe + era * 400 + (if m ≤ 2 then 1 else 0), m.toNat, d.toNat)

/-- Tokens of a moment-style date format string. Modelled from the spec:
DateService (src/services/date-service.ts) is not under src/; the spec
describes format-directed rendering/parsing, and only the tokens `YYYY`,
`MM`, `DD` occur in the formats the engine uses; other characters are
literals. -/
inductive FmtTok : Type where
  | year
  | month
  | day
  | lit (c : Char)
deriving DecidableEq

/-- Tokenizer for format strings. -/
def fmtTokens : List Char → List FmtTok
  | 'Y' :: 'Y' :: 'Y' :: 'Y' :: rest => .year :: fmtTokens rest
  | 'M' :: 'M' :: rest => .month :: fmtTokens rest
  | 'D' :: 'D' :: rest => .day :: fmtTokens rest
  | c :: rest => .lit c :: fmtTokens rest
  | [] => []

/-- Two-digit zero-padded rendering. -/
def pad2 (n : Nat) : List Char := [digitChar (n / 10 % 10), digitChar (n % 10)]

/-- Four-digit zero-padded rendering. -/
def pad4 (y : Int) : List Char :=
  let n := y.toNat
  [digitChar (n / 1000 % 10), digitChar (n / 100 % 10),
   digitChar (n / 10 % 10), digitChar (n % 10)]

/-- Modelled from the spec: `DateService.format` — render an epoch day
under a format string. -/
def formatDate (day : Int) (fmt : List Char) : List Char :=
  let c := civilFromDays day
  (fmtTokens fmt).flatMap
    (fun t =>
      match t with
      | .year => pad4 c.1
      | .month => pad2 c.2.1
      | .day => pad2 c.2.2
      | .lit ch => [ch])

/-- Exactly `n` digits from the front. -/
def takeDigitsN (n : Nat) (s : List Char) : Option (Nat × List Char) :=
  let pre := s.take n
  if pre.length = n ∧ pre.all isDigitB then some (digitsVal pre, s.drop n)
  else none

/-- Token-directed strict parse of a date string. -/
def parseFmtAux : List FmtTok → List Char → Int → Nat → Nat → Option (Int × Nat × Nat)
  | [], s, y, m, d => if s = [] then some (y, m, d) else none
  | .year :: ts, s, _, m, d =>
      match takeDigitsN 4 s with
      | some (v, rest) => parseFmtAux ts rest (v : Int) m d
      | none => none
  | .month :: ts, s, y, _, d =>
      match takeDigitsN 2 s with
      | some (v, rest) => parseFmtAux ts rest y v d
      | none => none
  | .day :: ts, s, y, m, _ =>
      match takeDigitsN 2 s with
      | some (v, rest) => parseFmtAux ts rest y m v
      | none => none
  | .lit c :: ts, s, y, m, d =>
      match s with
      | c' :: rest => if c' = c then parseFmtAux ts rest y m d else none
      | [] => none

/-- Modelled from the spec: `DateService.parse` — parse a date string
under one format, valid only if the components form a real civil date. -/
def parseFmt (s fmt : List Char) : Option Int :=
  match parseFmtAux (fmtTokens fmt) s 1970 1 1 with
  | some (y, m, d) =>
      if 1 ≤ m ∧ m ≤ 12 ∧ 1 ≤ d ∧ d ≤ daysInMonth y m then some (daysFromCivil y m d)
      else none
  | none => none

/-- Modelled from the spec: `DateService.parseMultiple` — try formats in
order, returning the first valid parse. -/
def parseMultiple (s : List Char) : List (List Char) → Option Int
  | [] => none
  | f :: rest =>
      match parseFmt s f with
      | some d => some d
      | none => parseMultiple s rest

/- §8 Statistics engine (StatisticsService) -/

/-- The settings record, reduced to the field the engine reads. -/
structure TrackerSettings : Type where
  dateFormat : List Char
deriving DecidableEq

/-- The ISO fallback format. -/
def fmtYMD : List Char := "YYYY-MM-DD".toList

/-- The dotted day-first fallback format. -/
def fmtDMYdot : List Char := "DD.MM.YYYY".toList

/-- The slashed month-first fallback format. -/
def fmtMDYslash : List Char := "MM/DD/YYYY".toList

/-- The slashed year-first format used by the windowed-statistics
tracking-start parse. -/
def fmtYMDslash : List Char := "YYYY/MM/DD".toList

/-- The hard safety cap on days examined by the streak loops
(`maxDaysBack = 3650` in the source; the shared constant module is not
under src/, but src/main.ts pins the value 3650). -/
def MAX_DAYS_BACK : Nat := 3650

/-- Modelled from the spec: `isTrackerValueTrue` (src/utils/validation.ts
is not under src/). The spec's truthiness normalization — nonzero numbers
are true, and a string is true when it is `1`, `true`, or any non-blank
text — matching the predicate inlined in src/main.ts (a number is true
iff nonzero, a string iff it is `1`, `true`, or trims to nonempty). -/
def isTrackerValueTrue : TValue → Bool
  | .num n => n ≠ 0
  | .numNonInt _ _ => true
  | .str s => s = "1".toList || s = "true".toList || jsTrim s ≠ []

/-- The format list tried by `getEntryValueByDate`. -/
def lookupFormats (s : TrackerSettings) : List (List Char) :=
  [s.dateFormat, fmtYMD, fmtDMYdot, fmtMDYslash]

/-- The for-loop of src `StatisticsService.getEntryValueByDate`: render the
date under each format in turn and return the first value found. -/
def getEntryValueByDateAux (entries : List (List Char × TValue)) (d : Int) :
    List (List Char) → Option TValue
  | [] => none
  | f :: rest =>
      match lookupAssoc entries (formatDate d f) with
      | some v => some v
      | none => getEntryValueByDateAux entries d rest

/-- src `StatisticsService.getEntryValueByDate`. -/
def getEntryValueByDate (entries : List (List Char × TValue)) (d : Int)
    (s : TrackerSettings) : Option TValue :=
  getEntryValueByDateAux entries d (lookupFormats s)

/-- The first key of the sorted key array (`sortedDates[0]`). -/
def firstSortedKey (entries : List (List Char × TValue)) : Option (List Char) :=
  (sortKeys (entries.map Prod.fst)).head?

/-- src `StatisticsService.determineStartTrackingDate`. Creation
timestamps are passed already normalized to their civil day
(`DateService.fromDate` + `startOfDay` on the host); `startOfDay` is the
identity on day numbers. -/
def determineStartTrackingDate (startTrackingDateStr : Option (List Char))
    (ctimeDay : Option Int) (entries : List (List Char × TValue))
    (s : TrackerSettings) (currentDay : Int) : Int :=
  let p1 : Option Int :=
    match startTrackingDateStr with
    | some o => parseMultiple o [fmtYMD, s.dateFormat, fmtDMYdot, fmtMDYslash]
    | none => none
  let p2 : Option Int :=
    match p1 with
    | some d => some d
    | none => ctimeDay
  let p3 : Option Int :=
    match firstSortedKey entries with
    | some k =>
        match parseMultiple k [s.dateFormat, fmtYMD, fmtDMYdot, fmtMDYslash] with
        | some f =>
            match p2 with
            | none => some f
            | some b => some (if f < b then f else b)
        | none => p2
    | none => p2
  match p3 with
  | some d => d
  | none => currentDay - 365

/-- The per-day success predicate of src `calculateStreaks`: for a bad
habit a day succeeds when it has no entry or a false-like entry; otherwise
a day succeeds only when it has a true-like entry. -/
def streakSuccess (isBadHabit : Bool) (val : Option TValue) : Bool :=
  if isBadHabit then
    match val with
    | none => true
    | some v => !(isTrackerValueTrue v)
  else
    match val with
    | none => false
    | some v => isTrackerValueTrue v

/-- The current-streak loop: walk backward from the end day, counting
consecutive successes, stopping before the tracking start or at the first
failure, capped by the fuel. -/
def currentStreakLoop (succ : Int → Bool) (start : Int) : Int → Nat → Nat
  | _, 0 => 0
  | d, fuel + 1 =>
      if d < start then 0
      else if succ d then currentStreakLoop succ start (d - 1) fuel + 1
      else 0

/-- The best-streak loop: walk the same backward range keeping a running
consecutive-success counter that resets on failure, tracking the maximum. -/
def bestStreakLoop (succ : Int → Bool) (start : Int) : Int → Nat → Nat → Nat → Nat
  | _, 0, _, best => best
  | d, fuel + 1, run, best =>
      if d < start then best
      else if succ d then
        bestStreakLoop succ start (d - 1) fuel (run + 1) (max best (run + 1))
      else bestStreakLoop succ start (d - 1) fuel 0 best

/-- Streak result record. -/
structure StreakInfo : Type where
  current : Nat
  best : Nat
deriving DecidableEq

/-- JS `toLowerCase` on the ASCII type tokens. -/
def toLowerList (s : List Char) : List Char := s.map Char.toLower

/-- src `StatisticsService.calculateStreaks`. The end date is taken as a
valid epoch day (in the day-number model every date value is valid, so the
source's invalid-date early returns of `(0, 0)` are vacuous). -/
def calculateStreaks (entries : List (List Char × TValue)) (s : TrackerSettings)
    (endDay : Int) (trackerType : List Char) (ctimeDay : Option Int)
    (startTrackingDateStr : Option (List Char)) : StreakInfo :=
  let isBad := toLowerList trackerType = trackerTypeBad
  let start := determineStartTrackingDate startTrackingDateStr ctimeDay entries s endDay
  let succ := fun d => streakSuccess isBad (getEntryValueByDate entries d s)
  { current := currentStreakLoop succ start endDay MAX_DAYS_BACK
    best := bestStreakLoop succ start endDay MAX_DAYS_BACK 0 0 }

/-- src `countWords`: trim, split on whitespace runs, count nonempty
pieces — the number of maximal non-whitespace runs. -/
def wordRuns : List Char → Bool → Nat
  | [], _ => 0
  | c :: rest, inWord =>
      if isWsB c then wordRuns rest false
      else (if inWord then 0 else 1) + wordRuns rest true

/-- Word count of a string. -/
def countWords (text : List Char) : Nat := wordRuns (jsTrim text) false

/-- JS `String(value)` on a ledger value. -/
def tvalueToString : TValue → List Char
  | .str s => s
  | v => numValueChars v

/-- A finite `Number(...)` result as a rational; the infinite results are
outside the rational model and are not exercised by any theorem below. -/
def jsNumToQ : JsNumV → ℚ
  | .fin n => n
  | .finNonInt m e => (m : ℚ) * (10 : ℚ) ^ e
  | _ => 0

/-- The raw numeric coercion shared by the windowed statistics: a number
is itself, the strings `1` and `true` are 1, any other string is
`Number(val) || 0`. -/
def rawNumVal (val : TValue) : ℚ :=
  match val with
  | .num n => n
  | .numNonInt m e => (m : ℚ) * (10 : ℚ) ^ e
  | .str s =>
      if s = "1".toList ∨ s = "true".toList then 1
      else jsNumToQ (jsNumberEval s)

/-- The per-day normalized value of src `calculateHabitStatistics`: for a
bad habit, absence or a zero value is success (1); for a good habit,
presence of a positive value is success (1). -/
def habitDayVal (isBad : Bool) (val : Option TValue) : ℚ :=
  let numVal : ℚ := match val with | none => 0 | some v => rawNumVal v
  if isBad then (if numVal = 0 ∨ val = none then 1 else 0)
  else (if val ≠ none ∧ numVal > 0 then 1 else 0)

/-- The per-day value of src `calculateMetricStatistics`: the word count
for text trackers, otherwise the raw numeric coercion. -/
def metricDayVal (isText : Bool) (val : Option TValue) : ℚ :=
  match val with
  | none => 0
  | some v => if isText then (countWords (tvalueToString v) : ℚ) else rawNumVal v

/-- Habit statistics record. -/
structure HabitStatistics : Type where
  totalRecords : Nat
  periodDays : List ℚ
  actualDaysCount : Nat
  completionRate : ℚ
  activeDays : Nat
  sum : ℚ
  avg : ℚ

/-- The `actualStartDate` adjustment of the windowed statistics: a
parseable tracking-start string strictly after the window start replaces
it. (Note the format list here differs from the streak path: it includes
`YYYY/MM/DD`.) -/
def windowActualStart (s : TrackerSettings) (startDate : Int)
    (startTrackingDateStr : Option (List Char)) : Int :=
  match startTrackingDateStr with
  | some o =>
      match parseMultiple o [s.dateFormat, fmtYMD, fmtYMDslash, fmtDMYdot] with
      | some t => if startDate < t then t else startDate
      | none => startDate
  | none => startDate

/-- src `StatisticsService.calculateHabitStatistics`. The day loop
enumerates every day from the actual start through the end date; each
day's value is looked up under the configured display format only. An
unparseable reference date is outside the model (the host would produce
NaN arithmetic); it returns a zeroed record. -/
def calculateHabitStatistics (entries : List (List Char × TValue))
    (s : TrackerSettings) (dateIso : List Char) (daysToShow : Nat)
    (trackerType : List Char) (startTrackingDateStr : Option (List Char)) :
    HabitStatistics :=
  match parseFmt dateIso s.dateFormat with
  | none => ⟨entries.length, [], 0, 0, 0, 0, 0⟩
  | some endDate =>
      let startDate := endDate - ((daysToShow : Int) - 1)
      let actualStart := windowActualStart s startDate startTrackingDateStr
      let n := (endDate - actualStart + 1).toNat
      let isBad := toLowerList trackerType = trackerTypeBad
      let periodDays := (List.range n).map
        (fun i : Nat => habitDayVal isBad
          (lookupAssoc entries (formatDate (actualStart + (i : Int)) s.dateFormat)))
      let sum := periodDays.foldl (· + ·) 0
      let activeDays := (periodDays.filter (fun v => v > 0)).length
      { totalRecords := entries.length
        periodDays := periodDays
        actualDaysCount := n
        completionRate := if 0 < n then (activeDays : ℚ) / (n : ℚ) * 100 else 0
        activeDays := activeDays
        sum := sum
        avg := if 0 < n then sum / (n : ℚ) else 0 }

/-- Metric statistics record. -/
structure MetricStatistics : Type where
  totalRecords : Nat
  periodDays : List ℚ
  actualDaysCount : Nat
  sum : ℚ
  avg : ℚ
  minV : Option ℚ
  maxV : Option ℚ
  median : Option ℚ
  activeDays : Nat

/-- src `StatisticsService.calculateMetricStatistics`. -/
def calculateMetricStatistics (entries : List (List Char × TValue))
    (s : TrackerSettings) (dateIso : List Char) (daysToShow : Nat)
    (trackerType : List Char) (startTrackingDateStr : Option (List Char)) :
    MetricStatistics :=
  match parseFmt dateIso s.dateFormat with
  | none => ⟨entries.length, [], 0, 0, 0, none, none, none, 0⟩
  | some endDate =>
      let startDate := endDate - ((daysToShow : Int) - 1)
      let actualStart := windowActualStart s startDate startTrackingDateStr
      let n := (endDate - actualStart + 1).toNat
      let isText := toLowerList trackerType = "text".toList
      let periodDays := (List.range n).map
        (fun i : Nat => metricDayVal isText
          (lookupAssoc entries (formatDate (actualStart + (i : Int)) s.dateFormat)))
      let sum := periodDays.foldl (· + ·) 0
      let sortedValues := List.insertionSort (fun a b : ℚ => a ≤ b) periodDays
      let mid := sortedValues.length / 2
      { totalRecords := entries.length
        periodDays := periodDays
        actualDaysCount := n
        sum := sum
        avg := if 0 < n then sum / (n : ℚ) else 0
        minV := sortedValues.head?
        maxV := sortedValues.getLast?
        median :=
          if sortedValues.length = 0 then none
          else if sortedValues.length % 2 = 0 then
            some ((sortedValues.getD (mid - 1) 0 + sortedValues.getD mid 0) / 2)
          else some (sortedValues.getD mid 0)
        activeDays := (periodDays.filter (fun v => v > 0)).length }

/-- Base statistics shared by both branches. -/
structure StatisticsBase : Type where
  totalRecords : Nat
  periodDays : List ℚ
  actualDaysCount : Nat

/-- Complete statistics result. -/
structure StatisticsResult : Type where
  base : StatisticsBase
  habit : Option HabitStatistics
  metric : Option MetricStatistics
  streaks : StreakInfo
  trackerType : List Char

/-- The habit test of src `calculateStatistics`: only the two habit enum
values take the habit branch; every other type string takes the metric
branch. -/
def isHabitType (t : List Char) : Bool :=
  toLowerList t = trackerTypeGood || toLowerList t = trackerTypeBad

/-- src `StatisticsService.calculateStatistics`. -/
def calculateStatistics (entries : List (List Char × TValue))
    (s : TrackerSettings) (dateIso : List Char) (daysToShow : Nat)
    (trackerType : List Char) (endDay : Int) (ctimeDay : Option Int)
    (startTrackingDateStr : Option (List Char)) : StatisticsResult :=
  let streaks := calculateStreaks entries s endDay trackerType ctimeDay startTrackingDateStr
  if isHabitType trackerType then
    let h := calculateHabitStatistics entries s dateIso daysToShow trackerType startTrackingDateStr
    { base := ⟨h.totalRecords, h.periodDays, h.actualDaysCount⟩
      habit := some h
      metric := none
      streaks := streaks
      trackerType := trackerType }
  else
    let m := calculateMetricStatistics entries s dateIso daysToShow trackerType startTrackingDateStr
    { base := ⟨m.totalRecords, m.periodDays, m.actualDaysCount⟩
      habit := none
      metric := some m
      streaks := streaks
      trackerType := trackerType }

/- §9 Caches (TrackerDataCache and StateManager) -/

/-- The slice of `TrackerFileOptions` the cache claims need. -/
structure TrackerFileOptionsM : Type where
  mode : List Char
deriving DecidableEq

/-- A `TrackerDataCache` entry: freshness fingerprint (mtime + size),
creation timestamp (for the TTL), the two optional cached components, and
the last-access timestamp (for LRU). -/
structure CacheEntry : Type where
  mtime : Int
  size : Int
  timestamp : Int
  frontmatter : Option TrackerFileOptionsM
  entries : Option (List (List Char × TValue))
  lastAccessed : Int
deriving DecidableEq

/-- The live-document metadata the cache consults (`file.path`,
`file.stat.mtime`, `file.stat.size`). -/
structure FileStat : Type where
  path : List Char
  mtime : Int
  size : Int
deriving DecidableEq

/-- src `TrackerDataCache.isStale`: a missing entry is stale; an entry is
stale when the TTL has elapsed since its creation, or the live document's
modification time or size differs from the recorded fingerprint. The TTL
constant lives in the constants module (not under src/), so it is passed
as a parameter. -/
def isStale (now ttl : Int) (f : FileStat) (entry : Option CacheEntry) : Bool :=
  match entry with
  | none => true
  | some e =>
      if now - e.timestamp > ttl then true
      else if e.mtime ≠ f.mtime then true
      else if e.size ≠ f.size then true
      else false

/-- The `for (const [key, entry] of cache)` minimum scan of
src `evictLRU`: the first entry (in iteration order) with strictly least
`lastAccessed`. -/
def lruOldestAux : Option (List Char × Int) → List (List Char × CacheEntry) →
    Option (List Char)
  | acc, [] => acc.map Prod.fst
  | acc, (k, e) :: rest =>
      match acc with
      | some (_, t) =>
          if e.lastAccessed < t then lruOldestAux (some (k, e.lastAccessed)) rest
          else lruOldestAux acc rest
      | none => lruOldestAux (some (k, e.lastAccessed)) rest

/-- src `TrackerDataCache.evictLRU`: do nothing unless the size already
exceeds the bound; otherwise delete the least-recently-accessed entry. -/
def evictLRU (maxSize : Nat) (cache : List (List Char × CacheEntry)) :
    List (List Char × CacheEntry) :=
  if cache.length ≤ maxSize then cache
  else
    match lruOldestAux none cache with
    | some k => delAssoc cache k
    | none => cache

/-- Result of a cache get: the returned component, the updated cache, and
whether the loader (a fresh decode) was invoked. -/
structure GetResult (α : Type) : Type where
  result : α
  cache : List (List Char × CacheEntry)
  usedLoader : Bool

/-- src `TrackerDataCache.getEntries` as a pure transition. The async
loader is modelled by the `loaded` argument (the ledger a fresh decode
would produce). On a stale or component-missing entry: evict, rebuild the
entry (keeping the other component only when the entry was merely
incomplete, not stale), store, report the loader used. On a hit: bump
`lastAccessed` and return the cached ledger. -/
def getEntries (now ttl : Int) (maxSize : Nat)
    (cache : List (List Char × CacheEntry)) (f : FileStat)
    (loaded : List (List Char × TValue)) :
    GetResult (List (List Char × TValue)) :=
  let entry := lookupAssoc cache f.path
  if isStale now ttl f entry || (entry.bind (·.entries)).isNone then
    let cache1 := evictLRU maxSize cache
    let fresh : CacheEntry :=
      { mtime := f.mtime, size := f.size, timestamp := now, lastAccessed := now
        entries := some loaded
        frontmatter := if isStale now ttl f entry then none else entry.bind (·.frontmatter) }
    ⟨loaded, setAssoc cache1 f.path fresh, true⟩
  else
    match entry with
    | some e => ⟨e.entries.getD [], setAssoc cache f.path { e with lastAccessed := now }, false⟩
    | none => ⟨[], cache, false⟩

/-- src `TrackerDataCache.getFrontmatter` as a pure transition (mirror of
`getEntries` for the frontmatter component). -/
def getFrontmatter (now ttl : Int) (maxSize : Nat)
    (cache : List (List Char × CacheEntry)) (f : FileStat)
    (loaded : TrackerFileOptionsM) : GetResult TrackerFileOptionsM :=
  let entry := lookupAssoc cache f.path
  if isStale now ttl f entry || (entry.bind (·.frontmatter)).isNone then
    let cache1 := evictLRU maxSize cache
    let fresh : CacheEntry :=
      { mtime := f.mtime, size := f.size, timestamp := now, lastAccessed := now
        frontmatter := some loaded
        entries := if isStale now ttl f entry then none else entry.bind (·.entries) }
    ⟨loaded, setAssoc cache1 f.path fresh, true⟩
  else
    match entry with
    | some e => ⟨e.frontmatter.getD ⟨trackerTypeGood⟩,
        setAssoc cache f.path { e with lastAccessed := now }, false⟩
    | none => ⟨⟨trackerTypeGood⟩, cache, false⟩

/-- The per-document state cached by the StateManager. -/
structure TrackerState : Type where
  entries : List (List Char × TValue)
  fileOpts : TrackerFileOptionsM
deriving DecidableEq

/-- The StateManager's mutable state: the path-keyed state map and the
explicit LRU access order (most recently used at the end). -/
structure SMState : Type where
  trackerState : List (List Char × TrackerState)
  accessOrder : List (List Char)
deriving DecidableEq

/-- src `StateManager.updateAccessOrder`: remove the path's first
occurrence, then push it to the most-recently-used end. -/
def updateAccessOrder (order : List (List Char)) (p : List Char) :
    List (List Char) :=
  order.erase p ++ [p]

/-- src `StateManager.evictIfNeeded`: when the map already holds at least
`maxSize` entries, shift the least-recently-used path off the front of the
access order and delete its state. -/
def evictIfNeeded (maxSize : Nat) (s : SMState) : SMState :=
  if maxSize ≤ s.trackerState.length then
    match s.accessOrder with
    | [] => s
    | k :: rest => ⟨delAssoc s.trackerState k, rest⟩
  else s

/-- Result of `ensureTrackerState`: the new state, the returned tracker
state, and whether the loaders ran. -/
structure EnsureResult : Type where
  state : SMState
  result : TrackerState
  usedLoader : Bool

/-- src `StateManager.ensureTrackerState` as a pure transition: an
existing entry is returned as-is (only the access order is updated — no
staleness check of any kind); on a miss the cache is evicted if full and
the freshly loaded state (modelled by the `fresh` argument, the value the
`Promise.all` loaders would produce) is stored. -/
def ensureTrackerState (maxSize : Nat) (s : SMState) (p : List Char)
    (fresh : TrackerState) : EnsureResult :=
  match lookupAssoc s.trackerState p with
  | some existing =>
      ⟨⟨s.trackerState, updateAccessOrder s.accessOrder p⟩, existing, false⟩
  | none =>
      let s1 := evictIfNeeded maxSize s
      ⟨⟨setAssoc s1.trackerState p fresh, updateAccessOrder s1.accessOrder p⟩,
        fresh, true⟩

/- §10 Claim-side definitions (worded from the spec/claims, for
refinement comparisons; each is compared against the source-translated
definition above) -/

/-- A date-class character (digit or dash). -/
def isDateKeyChar (c : Char) : Bool := isDigitB c || c = '-'

/-- Date-shaped ledger key: ten characters of the digit/dash class with
dashes in the `YYYY-MM-DD` positions. -/
def isDateShapedKey (k : List Char) : Bool :=
  k.length = 10 && k.all isDateKeyChar && k.getD 4 ' ' = '-' && k.getD 7 ' ' = '-'

/-- Conditions on a ledger value under which the round-trip law holds (the
amended C1): numbers are finite - integral, or non-integral in the canonical
scaled-decimal form `mant * 10 ^ exp` with `exp < 0` and a nonzero mantissa
not divisible by ten, which is the representation invariant of the model
(every finite non-integral JS float has exactly one such form, and it is the
form `parseMaybeNumber` itself produces) - and strings must not coerce to a
finite number, must be free of backslashes, newlines and carriage returns
(the serializer's escapes for those are not reversed by the decoder), and
must not contain an occurrence of the empty-sentinel pattern (checked on the
escaped form, which agrees with the raw form for backslash-free strings). -/
def roundTripValueOk : TValue → Prop
  | .num _ => True
  | .numNonInt mant exp => exp < 0 ∧ mant ≠ 0 ∧ mant.emod 10 ≠ 0
  | .str s =>
      jsIsFinite (jsNumberEval s) = false ∧ bslash ∉ s ∧ '\n' ∉ s ∧ '\r' ∉ s ∧
        containsSentinel (escapeStr s) = false

instance : ∀ v, Decidable (roundTripValueOk v) := by
  intro v
  cases v <;> simp [roundTripValueOk] <;> infer_instance

/-- Claim-side lookup of C5, as the claim words it: the value under the
first format in the configured-then-fallback list whose rendering of the
date is a key of the ledger. -/
def specMultiFormatLookup (entries : List (List Char × TValue)) (d : Int)
    (s : TrackerSettings) : Option TValue :=
  (lookupFormats s).findSome? (fun f => lookupAssoc entries (formatDate d f))

/-- Claim-side resolution of C4, as the claim words it: the minimum of all
valid candidates among the parseable override, the creation day, and the
parseable earliest ledger key, with the 365-day fallback. -/
def minOfCandidatesSpec (startTrackingDateStr : Option (List Char))
    (ctimeDay : Option Int) (entries : List (List Char × TValue))
    (s : TrackerSettings) (currentDay : Int) : Int :=
  let c1 : List Int :=
    match startTrackingDateStr with
    | some o => (parseMultiple o [fmtYMD, s.dateFormat, fmtDMYdot, fmtMDYslash]).toList
    | none => []
  let c2 : List Int :=
    match ctimeDay with
    | some c => [c]
    | none => []
  let c3 : List Int :=
    match firstSortedKey entries with
    | some k => (parseMultiple k [s.dateFormat, fmtYMD, fmtDMYdot, fmtMDYslash]).toList
    | none => []
  match (c1 ++ c2 ++ c3).min? with
  | some m => m
  | none => currentDay - 365

/-- Claim-side resolution of the amended C4: the parseable override, when
present, replaces the creation day entirely; the resolved start is the
minimum of that primary candidate and the parseable earliest ledger key;
the fallback is 365 days before the reference day. -/
def resolvedStartSpec (startTrackingDateStr : Option (List Char))
    (ctimeDay : Option Int) (entries : List (List Char × TValue))
    (s : TrackerSettings) (currentDay : Int) : Int :=
  let primary : Option Int :=
    match startTrackingDateStr with
    | some o =>
        match parseMultiple o [fmtYMD, s.dateFormat, fmtDMYdot, fmtMDYslash] with
        | some d => some d
        | none => ctimeDay
    | none => ctimeDay
  let ledger : Option Int :=
    match firstSortedKey entries with
    | some k => parseMultiple k [s.dateFormat, fmtYMD, fmtDMYdot, fmtMDYslash]
    | none => none
  match (primary.toList ++ ledger.toList).min? with
  | some m => m
  | none => currentDay - 365

/-- Fold of `ensureTrackerState` over a sequence of document paths, with
the freshly loaded state for each path supplied by `freshFor`. -/
def ensureAll (maxSize : Nat) (freshFor : List Char → TrackerState)
    (s : SMState) (ps : List (List Char)) : SMState :=
  ps.foldl (fun st p => (ensureTrackerState maxSize st p (freshFor p)).state) s

/- §11 Helper lemmas -/

theorem bestStreakLoop_ge_best (succ : Int → Bool) (start : Int) :
    ∀ (fuel : Nat) (d : Int) (run best : Nat),
      best ≤ bestStreakLoop succ start d fuel run best := by
  intro fuel
  induction fuel with
  | zero => intro d run best; simp [bestStreakLoop]
  | succ n ih =>
      intro d run best
      simp only [bestStreakLoop]
      split
      · exact le_refl best
      · split
        · exact le_trans (le_max_left _ _) (ih _ _ _)
        · exact ih _ _ _

theorem bestStreakLoop_ge_run_add (succ : Int → Bool) (start : Int) :
    ∀ (fuel : Nat) (d : Int) (run best : Nat), run ≤ best →
      run + currentStreakLoop succ start d fuel ≤
        bestStreakLoop succ start d fuel run best := by
  intro fuel
  induction fuel with
  | zero => intro d run best h; simpa [bestStreakLoop, currentStreakLoop] using h
  | succ n ih =>
      intro d run best h
      simp only [bestStreakLoop, currentStreakLoop]
      split
      · simpa [currentStreakLoop] using h
      · split
        · have := ih (d - 1) (run + 1) (max best (run + 1)) (le_max_right _ _)
          omega
        · have h2 := bestStreakLoop_ge_best succ start n (d - 1) 0 best
          omega

theorem getEntryValueByDateAux_eq_findSome (entries : List (List Char × TValue))
    (d : Int) : ∀ fs : List (List Char),
      getEntryValueByDateAux entries d fs =
        fs.findSome? (fun f => lookupAssoc entries (formatDate d f)) := by
  intro fs
  induction fs with
  | nil => rfl
  | cons f rest ih =>
      simp only [getEntryValueByDateAux, List.findSome?]
      cases lookupAssoc entries (formatDate d f) <;> simp [ih]

theorem habitDayVal_none (isBad : Bool) : habitDayVal isBad none = if isBad then 1 else 0 := by
  cases isBad <;> simp [habitDayVal]

theorem filter_pos_of_map_zero (l : List Nat) :
    ((l.map (fun _ => (0 : ℚ))).filter (fun v => v > 0)).length = 0 := by
  induction l with
  | nil => rfl
  | cons x rest ih =>
      simp only [List.map_cons, List.filter]
      norm_num [ih]

/- §12 Claim theorems -/

/-- C10: for every ledger, settings, tracker type, reference end day,
creation day and tracking-start override, the best streak returned by
`calculateStreaks` is at least the current streak. -/
theorem C10_best_ge_current (entries : List (List Char × TValue))
    (s : TrackerSettings) (endDay : Int) (trackerType : List Char)
    (ctimeDay : Option Int) (startTrackingDateStr : Option (List Char)) :
    (calculateStreaks entries s endDay trackerType ctimeDay startTrackingDateStr).current ≤
      (calculateStreaks entries s endDay trackerType ctimeDay startTrackingDateStr).best := by
  unfold calculateStreaks
  simpa using
    bestStreakLoop_ge_run_add
      (fun d => streakSuccess (toLowerList trackerType = trackerTypeBad)
        (getEntryValueByDate entries d s))
      (determineStartTrackingDate startTrackingDateStr ctimeDay entries s endDay)
      MAX_DAYS_BACK endDay 0 0 (le_refl 0)

/-- C6: a document with no parseable metadata header makes `writeLogLine`
fail with the missing-frontmatter error, and the stored document text is
unchanged on this error path. -/
theorem C6_missing_frontmatter (content dateIso value : List Char)
    (h : extractFrontmatter content = none) :
    writeLogLine content dateIso value = .error .noFrontmatter ∧
      writeLogLineApply content dateIso value = content := by
  refine ⟨?_, ?_⟩ <;> simp [writeLogLine, writeLogLineApply, h]

/-- Witness for C6 at a concrete header-less document. -/
theorem C6_missing_frontmatter_witness :
    extractFrontmatter "no header".toList = none ∧
      (writeLogLine "no header".toList "2024-01-02".toList "7".toList =
          .error .noFrontmatter ∧
        writeLogLineApply "no header".toList "2024-01-02".toList "7".toList =
          "no header".toList) :=
  ⟨by decide, C6_missing_frontmatter _ _ _ (by decide)⟩

/-- C7 (code bug): on a document whose header has a field after a
non-empty data section, a successful `writeLogLine` does not preserve that
field's line: the regex match of the old data section consumes its
trailing newline, and the replacement (trimmed of its newline) merges the
following `unit` line into the last data line. -/
theorem C7_header_merge_bug :
    ("\nunit: \"kg\"\n".toList <:+:
        "---\ntype: \"good-habit\"\ndata:\n  \"2024-01-01\": 1\nunit: \"kg\"\n---\nBody\n".toList) ∧
      okSatisfies (fun _ => true)
        (writeLogLine
          "---\ntype: \"good-habit\"\ndata:\n  \"2024-01-01\": 1\nunit: \"kg\"\n---\nBody\n".toList
          "2024-01-02".toList "7".toList) = true ∧
      okSatisfies (fun out => decide ("\nunit: \"kg\"\n".toList <:+: out))
        (writeLogLine
          "---\ntype: \"good-habit\"\ndata:\n  \"2024-01-01\": 1\nunit: \"kg\"\n---\nBody\n".toList
          "2024-01-02".toList "7".toList) = false := by
  decide

/-- C8 counterexample: avoidance habit, empty ledger, resolved tracking
start exactly 10 days before the reference end day — the streaks are not
(10, 10). -/
theorem C8_streak_counterexample :
    determineStartTrackingDate (some "2024-03-10".toList) none [] ⟨fmtYMD⟩
        (daysFromCivil 2024 3 20) = daysFromCivil 2024 3 20 - 10 ∧
      calculateStreaks [] ⟨fmtYMD⟩ (daysFromCivil 2024 3 20) trackerTypeBad none
        (some "2024-03-10".toList) ≠ ⟨10, 10⟩ := by
  decide

/-- C8 amended: in that scenario the walk covers the 11 days from the
start day through the end day inclusive, so both streaks are 11. -/
theorem C8_streak_amended :
    calculateStreaks [] ⟨fmtYMD⟩ (daysFromCivil 2024 3 20) trackerTypeBad none
      (some "2024-03-10".toList) = ⟨11, 11⟩ := by
  decide

/-- C4 counterexample: with a parseable override (2024-05-01), an earlier
creation day (2024-01-01) and a later earliest ledger key (2024-06-01),
the resolved start is the override, not the minimum of all candidates. -/
theorem C4_start_date_counterexample :
    determineStartTrackingDate (some "2024-05-01".toList)
        (some (daysFromCivil 2024 1 1)) [("2024-06-01".toList, .num 1)] ⟨fmtYMD⟩
        (daysFromCivil 2024 7 1) ≠
      minOfCandidatesSpec (some "2024-05-01".toList)
        (some (daysFromCivil 2024 1 1)) [("2024-06-01".toList, .num 1)] ⟨fmtYMD⟩
        (daysFromCivil 2024 7 1) := by
  decide

/-- C4 amended: the resolved start equals the minimum of the primary
candidate (the parseable override, else the creation day) and the
parseable earliest ledger key, falling back to 365 days before the
reference day when neither exists. -/
theorem C4_start_date_amended (ovr : Option (List Char)) (ctimeDay : Option Int)
    (entries : List (List Char × TValue)) (s : TrackerSettings) (cur : Int) :
    determineStartTrackingDate ovr ctimeDay entries s cur =
      resolvedStartSpec ovr ctimeDay entries s cur := by
  have hmin : ∀ f b : Int, (if f < b then f else b) = min f b := by
    intro f b; split <;> omega
  have hm1 : ∀ a : Int, ([a] : List Int).min? = some a := by
    intro a; simp [List.min?]
  have hm2 : ∀ a b : Int, ([a, b] : List Int).min? = some (min a b) := by
    intro a b; simp [List.min?]
  have step : ∀ (p2 : Option Int) (entries : List (List Char × TValue)) (cur : Int),
      (match
          (match firstSortedKey entries with
           | some k =>
              match parseMultiple k [s.dateFormat, fmtYMD, fmtDMYdot, fmtMDYslash] with
              | some f =>
                  match p2 with
                  | none => some f
                  | some b => some (if f < b then f else b)
              | none => p2
           | none => p2) with
        | some d => d
        | none => cur - 365) =
      (match
          (p2.toList ++
            (match firstSortedKey entries with
             | some k => parseMultiple k [s.dateFormat, fmtYMD, fmtDMYdot, fmtMDYslash]
             | none => none).toList).min? with
        | some m => m
        | none => cur - 365) := by
    intro p2 entries cur
    cases firstSortedKey entries with
    | none => cases p2 <;> simp [hm1, List.min?]
    | some k =>
        dsimp only
        generalize parseMultiple k [s.dateFormat, fmtYMD, fmtDMYdot, fmtMDYslash] = pk
        cases pk with
        | none => cases p2 <;> simp [hm1, List.min?]
        | some f => cases p2 <;> simp [hm1, hm2, hmin, min_comm]
  unfold determineStartTrackingDate resolvedStartSpec
  cases ovr with
  | none => exact step ctimeDay entries cur
  | some o =>
      dsimp only
      generalize parseMultiple o [fmtYMD, s.dateFormat, fmtDMYdot, fmtMDYslash] = p1
      cases p1 with
      | none => exact step ctimeDay entries cur
      | some b => exact step (some b) entries cur

/-- C5 counterexample: with the configured format `DD.MM.YYYY` and an
entry keyed under ISO `YYYY-MM-DD`, the streak lookup finds the entry but
the windowed habit and metric statistics (which look up only the
configured format) treat the day as absent. -/
theorem C5_multiformat_counterexample :
    getEntryValueByDate [("2024-01-02".toList, .num 1)] (daysFromCivil 2024 1 2)
        ⟨fmtDMYdot⟩ = some (.num 1) ∧
      (calculateHabitStatistics [("2024-01-02".toList, .num 1)] ⟨fmtDMYdot⟩
        "02.01.2024".toList 1 trackerTypeGood none).activeDays = 0 ∧
      (calculateMetricStatistics [("2024-01-02".toList, .num 1)] ⟨fmtDMYdot⟩
        "02.01.2024".toList 1 "number".toList none).activeDays = 0 := by
  decide

/-- C5 amended: the streak-computation lookup (`getEntryValueByDate`)
tries the configured format and then the three fallback formats, in
order, returning the value under the first format whose rendering is a
ledger key; the windowed habit statistics, however, look up only the
configured format, so a ledger with no keys in that format yields no
active days regardless of other-format keys. -/
theorem C5_multiformat_amended :
    (∀ (entries : List (List Char × TValue)) (d : Int) (s : TrackerSettings),
        getEntryValueByDate entries d s = specMultiFormatLookup entries d s) ∧
      (∀ (entries : List (List Char × TValue)) (s : TrackerSettings)
          (dateIso : List Char) (daysToShow : Nat) (ovr : Option (List Char)),
        (∀ d : Int, lookupAssoc entries (formatDate d s.dateFormat) = none) →
          (calculateHabitStatistics entries s dateIso daysToShow trackerTypeGood
            ovr).activeDays = 0) := by
  constructor
  · intro entries d s
    exact getEntryValueByDateAux_eq_findSome entries d (lookupFormats s)
  · intro entries s dateIso daysToShow ovr h
    unfold calculateHabitStatistics
    cases hp : parseFmt dateIso s.dateFormat with
    | none => rfl
    | some endDate =>
        simp only
        have hbad : decide (toLowerList trackerTypeGood = trackerTypeBad) = false := by decide
        have hmap :
            (List.range (endDate - windowActualStart s (endDate - ((daysToShow : Int) - 1)) ovr + 1).toNat).map
                (fun i : Nat => habitDayVal (decide (toLowerList trackerTypeGood = trackerTypeBad))
                  (lookupAssoc entries
                    (formatDate (windowActualStart s (endDate - ((daysToShow : Int) - 1)) ovr + (i : Int))
                      s.dateFormat))) =
              (List.range (endDate - windowActualStart s (endDate - ((daysToShow : Int) - 1)) ovr + 1).toNat).map
                (fun _ => (0 : ℚ)) := by
          apply List.map_congr_left
          intro i _
          rw [h, hbad]
          simp [habitDayVal]
        rw [hmap]
        exact filter_pos_of_map_zero
          (List.range (endDate - windowActualStart s (endDate - ((daysToShow : Int) - 1)) ovr + 1).toNat)

/-- Witness for C5 amended at concrete inputs. -/
theorem C5_multiformat_amended_witness :
    getEntryValueByDate [] 0 ⟨fmtYMD⟩ = specMultiFormatLookup [] 0 ⟨fmtYMD⟩ ∧
      (calculateHabitStatistics [] ⟨fmtYMD⟩ "2024-01-02".toList 3 trackerTypeGood
        none).activeDays = 0 :=
  ⟨C5_multiformat_amended.1 [] 0 ⟨fmtYMD⟩,
    C5_multiformat_amended.2 [] ⟨fmtYMD⟩ "2024-01-02".toList 3 none (fun _ => rfl)⟩

theorem lookupAssoc_setAssoc_self {α : Type} (l : List (List Char × α))
    (k : List Char) (v : α) : lookupAssoc (setAssoc l k v) k = some v := by
  induction l with
  | nil => simp [setAssoc, lookupAssoc]
  | cons kv rest ih =>
      by_cases h : kv.1 = k <;> simp [setAssoc, lookupAssoc, h, ih]

theorem setAssoc_of_lookup_none {α : Type} (l : List (List Char × α))
    (k : List Char) (v : α) (h : lookupAssoc l k = none) :
    setAssoc l k v = l ++ [(k, v)] := by
  induction l with
  | nil => simp [setAssoc]
  | cons kv rest ih =>
      by_cases hk : kv.1 = k
      · simp [lookupAssoc, hk] at h
      · simp [lookupAssoc, hk] at h
        simp [setAssoc, hk, ih h]

theorem lookupAssoc_append_none {α : Type} (a b : List (List Char × α))
    (k : List Char) (h : lookupAssoc a k = none) :
    lookupAssoc (a ++ b) k = lookupAssoc b k := by
  induction a with
  | nil => simp
  | cons kv rest ih =>
      by_cases hk : kv.1 = k
      · simp [lookupAssoc, hk] at h
      · simp [lookupAssoc, hk] at h ⊢
        exact ih h

theorem lookupAssoc_map_pair_none (ks : List (List Char))
    (freshFor : List Char → TrackerState) (k : List Char) (h : k ∉ ks) :
    lookupAssoc (ks.map (fun p => (p, freshFor p))) k = none := by
  induction ks with
  | nil => rfl
  | cons q rest ih =>
      simp only [List.mem_cons, not_or] at h
      simp [lookupAssoc, Ne.symm h.1, ih h.2]

theorem isStale_true_of_fingerprint (now ttl : Int) (f : FileStat)
    (e : CacheEntry) (h : e.mtime ≠ f.mtime ∨ e.size ≠ f.size) :
    isStale now ttl f (some e) = true := by
  rcases h with h | h <;> simp [isStale] <;> tauto

theorem ensureAll_append (maxN : Nat) (freshFor : List Char → TrackerState)
    (s : SMState) (a b : List (List Char)) :
    ensureAll maxN freshFor s (a ++ b) =
      ensureAll maxN freshFor (ensureAll maxN freshFor s a) b := by
  simp [ensureAll, List.foldl_append]

theorem ensureAll_fresh (maxN : Nat) (freshFor : List Char → TrackerState) :
    ∀ (ps : List (List Char)) (st : List (List Char × TrackerState))
      (order : List (List Char)),
      ps.Nodup → (∀ p ∈ ps, lookupAssoc st p = none) → (∀ p ∈ ps, p ∉ order) →
      st.length + ps.length ≤ maxN →
      ensureAll maxN freshFor ⟨st, order⟩ ps =
        ⟨st ++ ps.map (fun p => (p, freshFor p)), order ++ ps⟩ := by
  intro ps
  induction ps with
  | nil => intro st order _ _ _ _; simp [ensureAll]
  | cons p rest ih =>
      intro st order hnd hlk hord hlen
      have hp : lookupAssoc st p = none := hlk p (List.mem_cons_self _ _)
      have hpo : p ∉ order := hord p (List.mem_cons_self _ _)
      have hstep :
          (ensureTrackerState maxN ⟨st, order⟩ p (freshFor p)).state =
            ⟨st ++ [(p, freshFor p)], order ++ [p]⟩ := by
        simp only [ensureTrackerState, hp]
        have hnoev : evictIfNeeded maxN ⟨st, order⟩ = ⟨st, order⟩ := by
          have : ¬ maxN ≤ st.length := by simp at hlen; omega
          simp [evictIfNeeded, this]
        rw [hnoev]
        simp [setAssoc_of_lookup_none st p _ hp, updateAccessOrder,
          List.erase_of_not_mem hpo]
      have hrec := ih (st ++ [(p, freshFor p)]) (order ++ [p])
        hnd.of_cons
        (by
          intro q hq
          have hq1 : lookupAssoc st q = none := hlk q (List.mem_cons_of_mem _ hq)
          have hq2 : q ≠ p := by
            intro he; exact (List.nodup_cons.mp hnd).1 (he ▸ hq)
          rw [lookupAssoc_append_none st _ q hq1]
          simp [lookupAssoc, Ne.symm hq2])
        (by
          intro q hq
          have hq2 : q ≠ p := by
            intro he; exact (List.nodup_cons.mp hnd).1 (he ▸ hq)
          simp [hord q (List.mem_cons_of_mem _ hq), hq2])
        (by simp at hlen ⊢; omega)
      calc ensureAll maxN freshFor ⟨st, order⟩ (p :: rest) =
            ensureAll maxN freshFor ⟨st ++ [(p, freshFor p)], order ++ [p]⟩ rest := by
              simp [ensureAll, hstep]
        _ = ⟨st ++ [(p, freshFor p)] ++ rest.map (fun q => (q, freshFor q)),
              order ++ [p] ++ rest⟩ := hrec
        _ = ⟨st ++ (p :: rest).map (fun q => (q, freshFor q)), order ++ p :: rest⟩ := by
              simp

/-- C9 counterexample: a type line holding a string outside the closed
tracker-type enum is kept raw in `mode` — it is neither a valid enum
member nor the good-habit fallback. -/
theorem C9_mode_counterexample :
    getFileModeFromContent "---\ntype: \"banana\"\ndata: x\n---\n".toList =
        "banana".toList ∧
      "banana".toList ∉ trackerTypeStrings ∧
      getFileModeFromContent "---\ntype: \"banana\"\ndata: x\n---\n".toList ≠
        trackerTypeGood := by
  decide

/-- C9 amended: the mode falls back to good-habit only when the
frontmatter block or the type line is missing; a matching type line's raw
captured string becomes the mode unchanged. Downstream, the streak
computation treats every non-bad-habit type exactly like good-habit, but
`calculateStatistics` routes every type outside the two habit enum values
to the metric branch, not the habit branch. -/
theorem C9_mode_amended :
    (∀ content : List Char, extractFrontmatter content = none →
        getFileModeFromContent content = trackerTypeGood) ∧
      (∀ (content fm body : List Char), extractFrontmatter content = some (fm, body) →
        typeCapture fm = none → getFileModeFromContent content = trackerTypeGood) ∧
      (∀ (content fm body t : List Char), extractFrontmatter content = some (fm, body) →
        typeCapture fm = some t → getFileModeFromContent content = jsTrim t) ∧
      (∀ (entries : List (List Char × TValue)) (s : TrackerSettings) (endDay : Int)
          (trackerType : List Char) (ctimeDay : Option Int)
          (ovr : Option (List Char)), toLowerList trackerType ≠ trackerTypeBad →
        calculateStreaks entries s endDay trackerType ctimeDay ovr =
          calculateStreaks entries s endDay trackerTypeGood ctimeDay ovr) ∧
      (∀ (entries : List (List Char × TValue)) (s : TrackerSettings)
          (dateIso : List Char) (daysToShow : Nat) (t : List Char) (endDay : Int)
          (ctimeDay : Option Int) (ovr : Option (List Char)),
        isHabitType t = false →
        (calculateStatistics entries s dateIso daysToShow t endDay ctimeDay
            ovr).habit = none) := by
  refine ⟨?_, ?_, ?_, ?_, ?_⟩
  · intro content h; simp [getFileModeFromContent, h]
  · intro content fm body h1 h2; simp [getFileModeFromContent, h1, h2]
  · intro content fm body t h1 h2; simp [getFileModeFromContent, h1, h2]
  · intro entries s endDay trackerType ctimeDay ovr h
    have e1 : decide (toLowerList trackerType = trackerTypeBad) = false := by
      simpa using h
    have e2 : decide (toLowerList trackerTypeGood = trackerTypeBad) = false := by
      decide
    simp only [calculateStreaks, e1, e2]
  · intro entries s dateIso daysToShow t endDay ctimeDay ovr h
    simp [calculateStatistics, h]

/-- Witness for C9 amended at concrete inputs. -/
theorem C9_mode_amended_witness :
    getFileModeFromContent "plain text".toList = trackerTypeGood ∧
      getFileModeFromContent "---\ndata: y\n---\n".toList = trackerTypeGood ∧
      getFileModeFromContent "---\ntype: \"banana\"\ndata: x\n---\n".toList =
        jsTrim "banana".toList ∧
      calculateStreaks [] ⟨fmtYMD⟩ 0 "banana".toList none none =
        calculateStreaks [] ⟨fmtYMD⟩ 0 trackerTypeGood none none ∧
      (calculateStatistics [] ⟨fmtYMD⟩ "2024-01-02".toList 1 "banana".toList 0 none
          none).habit = none :=
  ⟨C9_mode_amended.1 _ (by decide),
    C9_mode_amended.2.1 _ "data: y".toList "\n".toList (by decide) (by decide),
    C9_mode_amended.2.2.1 _ "type: \"banana\"\ndata: x".toList "\n".toList
      "banana".toList (by decide) (by decide),
    C9_mode_amended.2.2.2.1 [] ⟨fmtYMD⟩ 0 "banana".toList none none (by decide),
    C9_mode_amended.2.2.2.2 [] ⟨fmtYMD⟩ "2024-01-02".toList 1 "banana".toList 0
      none none (by decide)⟩

/-- C2 counterexample: after `getFrontmatter` populates a fresh entry, a
`getEntries` on the unchanged document (same mtime and size, within any
TTL) still invokes the loader — a fresh decode is triggered by a missing
component even though the entry is not stale, refuting the stated
biconditional. -/
theorem C2_staleness_counterexample :
    isStale 11 100 ⟨"a".toList, 1, 1⟩
        (lookupAssoc (getFrontmatter 10 100 5 [] ⟨"a".toList, 1, 1⟩
          ⟨trackerTypeGood⟩).cache "a".toList) = false ∧
      (getEntries 11 100 5 (getFrontmatter 10 100 5 [] ⟨"a".toList, 1, 1⟩
          ⟨trackerTypeGood⟩).cache ⟨"a".toList, 1, 1⟩ []).usedLoader = true := by
  decide

/-- C2 amended: for an existing entry, staleness holds exactly when the
TTL has elapsed since the entry's creation or the fingerprint (mtime,
size) differs from the live document; a fresh and component-complete
entry is served from the cache without the loader; a fingerprint change
forces the loader; and after a loading get, a second get within the TTL
on the unchanged document returns the loaded ledger without invoking the
loader again. (A fresh decode can also be triggered by a missing
component of a non-stale entry, so decode-on-get is not equivalent to
staleness.) -/
theorem C2_staleness_amended :
    (∀ (now ttl : Int) (f : FileStat) (e : CacheEntry),
        isStale now ttl f (some e) = true ↔
          (ttl < now - e.timestamp ∨ e.mtime ≠ f.mtime ∨ e.size ≠ f.size)) ∧
      (∀ (now ttl : Int) (maxN : Nat) (cache : List (List Char × CacheEntry))
          (f : FileStat) (e : CacheEntry) (es : List (List Char × TValue))
          (loaded : List (List Char × TValue)),
        lookupAssoc cache f.path = some e → e.entries = some es →
        isStale now ttl f (some e) = false →
        getEntries now ttl maxN cache f loaded =
          ⟨es, setAssoc cache f.path { e with lastAccessed := now }, false⟩) ∧
      (∀ (now ttl : Int) (maxN : Nat) (cache : List (List Char × CacheEntry))
          (f : FileStat) (e : CacheEntry) (loaded : List (List Char × TValue)),
        lookupAssoc cache f.path = some e →
        (e.mtime ≠ f.mtime ∨ e.size ≠ f.size) →
        (getEntries now ttl maxN cache f loaded).usedLoader = true) ∧
      (∀ (now now2 ttl : Int) (maxN : Nat) (cache : List (List Char × CacheEntry))
          (f : FileStat) (loaded loaded2 : List (List Char × TValue)),
        (getEntries now ttl maxN cache f loaded).usedLoader = true →
        now2 - now ≤ ttl →
        (getEntries now2 ttl maxN (getEntries now ttl maxN cache f loaded).cache f
            loaded2).result = loaded ∧
          (getEntries now2 ttl maxN (getEntries now ttl maxN cache f loaded).cache f
            loaded2).usedLoader = false) := by
  refine ⟨?_, ?_, ?_, ?_⟩
  · intro now ttl f e
    simp only [isStale]
    split_ifs with h1 h2 h3 <;> simp_all
  · intro now ttl maxN cache f e es loaded h1 h2 h3
    simp [getEntries, h1, h2, h3]
  · intro now ttl maxN cache f e loaded h1 h2
    simp [getEntries, h1, isStale_true_of_fingerprint now ttl f e h2]
  · intro now now2 ttl maxN cache f loaded loaded2 h1 h2
    by_cases hcond :
        (isStale now ttl f (lookupAssoc cache f.path) ||
          ((lookupAssoc cache f.path).bind (·.entries)).isNone) = true
    · have hc : getEntries now ttl maxN cache f loaded =
          ⟨loaded,
            setAssoc (evictLRU maxN cache) f.path
              { mtime := f.mtime, size := f.size, timestamp := now,
                lastAccessed := now, entries := some loaded,
                frontmatter :=
                  if isStale now ttl f (lookupAssoc cache f.path) then none
                  else (lookupAssoc cache f.path).bind (·.frontmatter) },
            true⟩ := by
        simp [getEntries, hcond]
      rw [hc]
      have hlk := lookupAssoc_setAssoc_self (evictLRU maxN cache) f.path
        { mtime := f.mtime, size := f.size, timestamp := now,
          lastAccessed := now, entries := some loaded,
          frontmatter :=
            if isStale now ttl f (lookupAssoc cache f.path) then none
            else (lookupAssoc cache f.path).bind (·.frontmatter) }
      have hst : isStale now2 ttl f
          (some (⟨f.mtime, f.size, now,
            (if isStale now ttl f (lookupAssoc cache f.path) then none
             else (lookupAssoc cache f.path).bind (·.frontmatter)),
            some loaded, now⟩ : CacheEntry)) = false := by
        simp only [isStale]
        split_ifs with hh1 hh2 hh3 <;> first | omega | simp_all
      exact ⟨by simp [getEntries, hlk, hst], by simp [getEntries, hlk, hst]⟩
    · exfalso
      simp only [Bool.not_eq_true] at hcond
      have : (getEntries now ttl maxN cache f loaded).usedLoader = false := by
        simp only [getEntries, hcond]
        cases hl : lookupAssoc cache f.path <;> simp
      rw [this] at h1
      exact Bool.false_ne_true h1

/-- Witness for C2 amended at concrete inputs. -/
theorem C2_staleness_amended_witness :
    (isStale 200 100 ⟨"a".toList, 1, 1⟩ (some ⟨1, 1, 0, none, some [], 0⟩) = true ↔
        (100 < (200 : Int) - 0 ∨ (1 : Int) ≠ 1 ∨ (1 : Int) ≠ 1)) ∧
      getEntries 5 100 4 [("a".toList, ⟨1, 1, 0, none, some [], 0⟩)]
          ⟨"a".toList, 1, 1⟩ [] =
        ⟨[], [("a".toList, ⟨1, 1, 0, none, some [], 5⟩)], false⟩ ∧
      (getEntries 5 100 4 [("a".toList, ⟨2, 1, 0, none, some [], 0⟩)]
          ⟨"a".toList, 1, 1⟩ []).usedLoader = true ∧
      ((getEntries 7 100 4 (getEntries 5 100 4 [] ⟨"a".toList, 1, 1⟩
            [("2024-01-01".toList, .num 1)]).cache ⟨"a".toList, 1, 1⟩ []).result =
          [("2024-01-01".toList, .num 1)] ∧
        (getEntries 7 100 4 (getEntries 5 100 4 [] ⟨"a".toList, 1, 1⟩
            [("2024-01-01".toList, .num 1)]).cache ⟨"a".toList, 1, 1⟩
            []).usedLoader = false) :=
  ⟨C2_staleness_amended.1 200 100 ⟨"a".toList, 1, 1⟩ ⟨1, 1, 0, none, some [], 0⟩,
    C2_staleness_amended.2.1 5 100 4 _ ⟨"a".toList, 1, 1⟩ ⟨1, 1, 0, none, some [], 0⟩
      [] [] (by decide) (by decide) (by decide),
    C2_staleness_amended.2.2.1 5 100 4 _ ⟨"a".toList, 1, 1⟩
      ⟨2, 1, 0, none, some [], 0⟩ [] (by decide) (by decide),
    C2_staleness_amended.2.2.2 5 7 100 4 [] ⟨"a".toList, 1, 1⟩
      [("2024-01-01".toList, .num 1)] [] (by decide) (by decide)⟩

/-- C3 counterexample: with the cache bounded at 2, three gets on three
distinct documents leave three entries in the `TrackerDataCache` — no
eviction happens on the insertion that reaches the bound, because
`evictLRU` only acts when the size already exceeds the bound. -/
theorem C3_lru_counterexample :
    (getEntries 30 1000 2
        (getEntries 20 1000 2
          (getEntries 10 1000 2 [] ⟨"a".toList, 1, 1⟩ []).cache
          ⟨"b".toList, 1, 1⟩ []).cache
        ⟨"c".toList, 1, 1⟩ []).cache.length = 3 := by
  decide

/-- C3 amended: the StateManager cache (the one with the explicit
access-order sequence) satisfies the claim: inserting N+1 distinct
documents into the empty cache bounded at N evicts exactly the
least-recently-used (first-inserted) one, leaving exactly the other N;
and every `ensureTrackerState` moves the accessed path to the
most-recently-used end. The `TrackerDataCache`, by contrast, evicts only
once its size already exceeds the bound, so it can hold N+1 entries. -/
theorem C3_lru_amended :
    (∀ (maxN : Nat) (freshFor : List Char → TrackerState) (p0 : List Char)
        (mid : List (List Char)) (plast : List Char),
      (p0 :: (mid ++ [plast])).Nodup → (p0 :: mid).length = maxN →
      ensureAll maxN freshFor ⟨[], []⟩ (p0 :: (mid ++ [plast])) =
        ⟨(mid ++ [plast]).map (fun p => (p, freshFor p)), mid ++ [plast]⟩) ∧
      (∀ (maxN : Nat) (st : SMState) (p : List Char) (fresh : TrackerState),
        ((ensureTrackerState maxN st p fresh).state).accessOrder.getLast? = some p) := by
  constructor
  · intro maxN freshFor p0 mid plast hnd hlen
    have hsplit : p0 :: (mid ++ [plast]) = (p0 :: mid) ++ [plast] := by simp
    rw [hsplit, ensureAll_append]
    have hndl : ((p0 :: mid) ++ [plast]).Nodup := by
      rw [← hsplit]; exact hnd
    have hnd2 := (List.nodup_append.mp hndl).1
    have hdisj := (List.nodup_append.mp hndl).2.2
    have hplast : plast ∉ p0 :: mid := by
      intro hmem
      exact hdisj hmem (List.mem_singleton_self plast)
    have hpre := ensureAll_fresh maxN freshFor (p0 :: mid) [] [] hnd2
      (by intro q _; rfl) (by intro q _; exact List.not_mem_nil q)
      (by simpa using Nat.le_of_eq hlen)
    rw [hpre]
    simp only [List.nil_append]
    have hlast : ensureAll maxN freshFor
        ⟨(p0 :: mid).map (fun p => (p, freshFor p)), p0 :: mid⟩ [plast] =
        ⟨(mid ++ [plast]).map (fun p => (p, freshFor p)), mid ++ [plast]⟩ := by
      simp only [ensureAll, List.foldl_cons, List.foldl_nil]
      have hlk : lookupAssoc ((p0 :: mid).map (fun p => (p, freshFor p))) plast =
          none := lookupAssoc_map_pair_none _ _ _ hplast
      simp only [ensureTrackerState, hlk]
      have hev : evictIfNeeded maxN
          ⟨(p0 :: mid).map (fun p => (p, freshFor p)), p0 :: mid⟩ =
          ⟨mid.map (fun p => (p, freshFor p)), mid⟩ := by
        have hge : maxN ≤ mid.length + 1 := by
          simp at hlen
          omega
        simp [evictIfNeeded, hge, delAssoc]
      rw [hev]
      have hplast2 : plast ∉ mid := by
        intro hmem; exact hplast (List.mem_cons_of_mem _ hmem)
      have hlk2 : lookupAssoc (mid.map (fun p => (p, freshFor p))) plast = none :=
        lookupAssoc_map_pair_none _ _ _ hplast2
      simp [setAssoc_of_lookup_none _ _ _ hlk2, updateAccessOrder,
        List.erase_of_not_mem hplast2]
    exact hlast
  · intro maxN st p fresh
    cases hlk : lookupAssoc st.trackerState p <;>
      simp [ensureTrackerState, hlk, updateAccessOrder]

/-- Witness for C3 amended at concrete inputs (bound 2, three distinct
paths). -/
theorem C3_lru_amended_witness :
    ensureAll 2 (fun _ => ⟨[], ⟨trackerTypeGood⟩⟩) ⟨[], []⟩
        ("a".toList :: (["b".toList] ++ ["c".toList])) =
      ⟨(["b".toList] ++ ["c".toList]).map
          (fun p => (p, (⟨[], ⟨trackerTypeGood⟩⟩ : TrackerState))),
        ["b".toList] ++ ["c".toList]⟩ ∧
      ((ensureTrackerState 2 ⟨[], []⟩ "a".toList
          ⟨[], ⟨trackerTypeGood⟩⟩).state).accessOrder.getLast? =
        some "a".toList :=
  ⟨C3_lru_amended.1 2 (fun _ => ⟨[], ⟨trackerTypeGood⟩⟩) "a".toList ["b".toList]
      "c".toList (by decide) (by decide),
    C3_lru_amended.2 2 ⟨[], []⟩ "a".toList ⟨[], ⟨trackerTypeGood⟩⟩⟩

theorem digitChar_facts (n : Nat) (h : n < 10) :
    isDigitB (digitChar n) = true ∧ isWsB (digitChar n) = false ∧
      digitChar n ≠ dquote ∧ digitChar n ≠ squote ∧ digitChar n ≠ bslash ∧
      digitChar n ≠ '\n' ∧ digitChar n ≠ 'd' ∧ digitChar n ≠ '-' ∧
      digitChar n ≠ '+' ∧ digitChar n ≠ 'I' ∧ digitChar n ≠ 'x' ∧
      digitVal (digitChar n) = n := by
  interval_cases n <;> exact ⟨by decide, by decide, by decide, by decide, by decide,
    by decide, by decide, by decide, by decide, by decide, by decide, by decide⟩

theorem digitChar_ne_zero_of_pos (m : Nat) (h1 : 0 < m) (h2 : m < 10) :
    digitChar m ≠ '0' := by
  interval_cases m <;> decide

theorem dateKeyChar_facts (c : Char) (h : isDateKeyChar c = true) :
    c ≠ dquote ∧ c ≠ squote ∧ isWsB c = false ∧ c ≠ '#' ∧ c ≠ ':' ∧
      c ≠ 'd' ∧ c ≠ '\n' ∧ c ≠ bslash ∧ c ≠ lbrace := by
  simp only [isDateKeyChar, isDigitB, Bool.or_eq_true, decide_eq_true_eq] at h
  rcases h with (((((((((h | h) | h) | h) | h) | h) | h) | h) | h) | h) | h <;> subst h <;>
    exact ⟨by decide, by decide, by decide, by decide, by decide, by decide,
      by decide, by decide, by decide⟩

theorem dropWhile_forall_false {p : Char → Bool} :
    ∀ l : List Char, (∀ c ∈ l, p c = false) → l.dropWhile p = l := by
  intro l h
  cases l with
  | nil => rfl
  | cons c rest => simp [List.dropWhile, h c (List.mem_cons_self _ _)]

theorem takeWhile_forall_true {p : Char → Bool} :
    ∀ l : List Char, (∀ c ∈ l, p c = true) → l.takeWhile p = l := by
  intro l h
  induction l with
  | nil => rfl
  | cons c rest ih =>
      simp [List.takeWhile, h c (List.mem_cons_self _ _),
        ih (fun x hx => h x (List.mem_cons_of_mem _ hx))]

theorem takeWhile_append_all {p : Char → Bool} :
    ∀ (l r : List Char), (∀ c ∈ l, p c = true) →
      (l ++ r).takeWhile p = l ++ r.takeWhile p := by
  intro l r h
  induction l with
  | nil => simp
  | cons c rest ih =>
      simp [List.takeWhile, h c (List.mem_cons_self _ _),
        ih (fun x hx => h x (List.mem_cons_of_mem _ hx))]

theorem jsTrim_eq_self_forall (s : List Char) (h : ∀ c ∈ s, isWsB c = false) :
    jsTrim s = s := by
  unfold jsTrim
  rw [dropWhile_forall_false s h,
    dropWhile_forall_false s.reverse (fun c hc => h c (List.mem_reverse.mp hc)),
    List.reverse_reverse]

theorem jsTrim_cons_ws (c : Char) (s : List Char) (h : isWsB c = true) :
    jsTrim (c :: s) = jsTrim s := by
  unfold jsTrim
  simp [List.dropWhile, h]

theorem jsTrim_eq_self_ends (s : List Char)
    (h1 : ∀ c, s.head? = some c → isWsB c = false)
    (h2 : ∀ c, s.getLast? = some c → isWsB c = false) : jsTrim s = s := by
  cases hs : s with
  | nil => rfl
  | cons a t =>
      unfold jsTrim
      have ha : isWsB a = false := h1 a (by simp [hs])
      rw [show (a :: t).dropWhile isWsB = a :: t by simp [List.dropWhile, ha]]
      cases hr : (a :: t).reverse with
      | nil => simp at hr
      | cons b u =>
          have hb : (a :: t).getLast? = some b := by
            rw [← List.head?_reverse, hr]; rfl
          have hbw : isWsB b = false := h2 b (hs ▸ hb)
          rw [show (b :: u).dropWhile isWsB = b :: u by simp [List.dropWhile, hbw],
            ← hr, List.reverse_reverse]

theorem natToCharsF_ne_nil : ∀ (fuel n : Nat), n < fuel → natToCharsF fuel n ≠ [] := by
  intro fuel
  cases fuel with
  | zero => intro n h; omega
  | succ f =>
      intro n _
      by_cases h10 : n < 10 <;> simp [natToCharsF, h10]

theorem natToCharsF_mem_digit : ∀ (fuel n : Nat) (c : Char), n < fuel →
    c ∈ natToCharsF fuel n → ∃ m, m < 10 ∧ c = digitChar m := by
  intro fuel
  induction fuel with
  | zero => intro n c h; omega
  | succ f ih =>
      intro n c hn hc
      by_cases h10 : n < 10
      · simp [natToCharsF, h10] at hc
        exact ⟨n, h10, hc⟩
      · simp only [natToCharsF, h10, if_false, List.mem_append,
          List.mem_singleton] at hc
        rcases hc with hc | hc
        · exact ih (n / 10) c (by omega) hc
        · exact ⟨n % 10, by omega, hc⟩

theorem digitsVal_append_single (xs : List Char) (c : Char) :
    digitsVal (xs ++ [c]) = 10 * digitsVal xs + digitVal c := by
  simp [digitsVal, List.foldl_append]

theorem digitsVal_natToCharsF : ∀ (fuel n : Nat), n < fuel →
    digitsVal (natToCharsF fuel n) = n := by
  intro fuel
  induction fuel with
  | zero => intro n h; omega
  | succ f ih =>
      intro n hn
      by_cases h10 : n < 10
      · simp [natToCharsF, h10, digitsVal, (digitChar_facts n h10).2.2.2.2.2.2.2.2.2.2.2]
      · rw [natToCharsF, if_neg h10, digitsVal_append_single,
          ih (n / 10) (by omega),
          (digitChar_facts (n % 10) (by omega)).2.2.2.2.2.2.2.2.2.2.2]
        omega

theorem natToCharsF_head_pos : ∀ (fuel n : Nat), n < fuel → n ≠ 0 →
    ∃ m, 0 < m ∧ m < 10 ∧ (natToCharsF fuel n).head? = some (digitChar m) := by
  intro fuel
  induction fuel with
  | zero => intro n h; omega
  | succ f ih =>
      intro n hn hnz
      by_cases h10 : n < 10
      · exact ⟨n, by omega, h10, by simp [natToCharsF, h10]⟩
      · obtain ⟨m, hm1, hm2, hm3⟩ := ih (n / 10) (by omega) (by omega)
        refine ⟨m, hm1, hm2, ?_⟩
        rw [natToCharsF, if_neg h10, List.head?_append_of_ne_nil]
        · exact hm3
        · exact natToCharsF_ne_nil f (n / 10) (by omega)

theorem natToCharsF_getLast : ∀ (fuel n : Nat), n < fuel →
    ∃ m, m < 10 ∧ (natToCharsF fuel n).getLast? = some (digitChar m) := by
  intro fuel
  cases fuel with
  | zero => intro n h; omega
  | succ f =>
      intro n _
      by_cases h10 : n < 10
      · exact ⟨n, h10, by simp [natToCharsF, h10]⟩
      · exact ⟨n % 10, by omega, by simp [natToCharsF, h10]⟩

theorem stripTens_spec : ∀ (fuel : Nat) (m e : Int),
    e ≤ (stripTens fuel m e).2 ∧
      (stripTens fuel m e).1 * 10 ^ ((stripTens fuel m e).2 - e).toNat = m := by
  intro fuel
  induction fuel with
  | zero => intro m e; exact ⟨le_refl e, by simp [stripTens]⟩
  | succ f ih =>
      intro m e
      by_cases h : m ≠ 0 ∧ m.emod 10 = 0
      · have hrw : stripTens (f + 1) m e = stripTens f (m.ediv 10) (e + 1) := by
          simp only [stripTens, if_pos h]
        obtain ⟨h1, h2⟩ := ih (m.ediv 10) (e + 1)
        rw [hrw]
        refine ⟨by omega, ?_⟩
        have hk : ((stripTens f (m.ediv 10) (e + 1)).2 - e).toNat
            = ((stripTens f (m.ediv 10) (e + 1)).2 - (e + 1)).toNat + 1 := by omega
        rw [hk, pow_succ, ← mul_assoc, h2]
        obtain ⟨h3, h4⟩ := h
        have h5 : 10 * (m.ediv 10) + m.emod 10 = m := Int.ediv_add_emod m 10
        omega
      · have hrw : stripTens (f + 1) m e = (m, e) := by
          simp only [stripTens, if_neg h]
        rw [hrw]
        exact ⟨le_refl e, by simp⟩

theorem mkJsNum_int (neg : Bool) (mant : Nat) :
    mkJsNum neg mant 0 = .fin (if neg then -(mant : Int) else (mant : Int)) := by
  simp only [mkJsNum]
  obtain ⟨h1, h2⟩ := stripTens_spec (mant + 1)
    (if neg then -(mant : Int) else (mant : Int)) 0
  set m : Int := if neg then -(mant : Int) else (mant : Int) with hm
  set p := stripTens (mant + 1) m 0 with hp
  by_cases hz : p.1 = 0
  · rw [if_pos hz]
    have hm0 : m = 0 := by rw [← h2, hz]; ring
    rw [hm0]
  · rw [if_neg hz, if_pos h1]
    have h3 : p.1 * 10 ^ p.2.toNat = m := by
      have h4 : (p.2 - 0).toNat = p.2.toNat := by omega
      rw [← h2, h4]
    rw [h3]

theorem hasRadixPrefix_false_head (t : List Char)
    (h : ∀ c, t.head? = some c → c ≠ '0') : hasRadixPrefix t = false := by
  match t with
  | [] => rfl
  | [c] => rfl
  | c :: x :: rest => simp [hasRadixPrefix, h c rfl]

theorem parseDecNum_natToChars (neg : Bool) (n : Nat) :
    parseDecNum neg (natToChars n) = mkJsNum neg n 0 := by
  have hall : ∀ c ∈ natToChars n, isDigitB c = true := by
    intro c hc
    obtain ⟨m, hm, rfl⟩ := natToCharsF_mem_digit (n + 1) n c (by omega) hc
    exact (digitChar_facts m hm).1
  have hne : natToChars n ≠ [] := natToCharsF_ne_nil (n + 1) n (by omega)
  have hval : digitsVal (natToChars n) = n := digitsVal_natToCharsF (n + 1) n (by omega)
  simp only [parseDecNum, takeWhile_forall_true _ hall, List.drop_length]
  rw [if_neg (by simp [hne])]
  simp [hval]


theorem jsNumberEval_intToChars (k : Int) : jsNumberEval (intToChars k) = .fin k := by
  by_cases hk0 : k = 0
  · subst hk0; decide
  · have hdigit_facts : ∀ c ∈ natToChars k.natAbs, isDigitB c = true ∧ isWsB c = false := by
      intro c hc
      obtain ⟨m, hm, rfl⟩ := natToCharsF_mem_digit (k.natAbs + 1) k.natAbs c (by omega) hc
      exact ⟨(digitChar_facts m hm).1, (digitChar_facts m hm).2.1⟩
    obtain ⟨m, hm1, hm2, hm3⟩ := natToCharsF_head_pos (k.natAbs + 1) k.natAbs
      (by omega) (by omega)
    have hne : natToChars k.natAbs ≠ [] := natToCharsF_ne_nil _ _ (by omega)
    obtain ⟨c0, cs, hcons⟩ : ∃ c0 cs, natToChars k.natAbs = c0 :: cs := by
      cases h : natToChars k.natAbs with
      | nil => exact absurd h hne
      | cons a b => exact ⟨a, b, rfl⟩
    have hc0 : c0 = digitChar m := by
      have h1 : (natToChars k.natAbs).head? = some (digitChar m) := hm3
      rw [hcons] at h1
      simpa using h1
    have hinf : natToChars k.natAbs ≠ "Infinity".toList := by
      intro heq
      have h1 : (natToChars k.natAbs).head? = some 'I' := by rw [heq]; rfl
      rw [hcons, hc0] at h1
      exact absurd (by simpa using h1) (digitChar_facts m hm2).2.2.2.2.2.2.2.2.2.1
    by_cases hneg : k < 0
    · have hi : intToChars k = '-' :: natToChars k.natAbs := by
        rw [intToChars, if_pos hneg]
      have htrim : jsTrim ('-' :: natToChars k.natAbs) = '-' :: natToChars k.natAbs := by
        apply jsTrim_eq_self_forall
        intro c hc
        rcases List.mem_cons.mp hc with rfl | hc
        · decide
        · exact (hdigit_facts c hc).2
      have hrp : hasRadixPrefix ('-' :: natToChars k.natAbs) = false :=
        hasRadixPrefix_false_head _ (by intro c h; simp at h; rw [← h]; decide)
      have hss : signSplit ('-' :: natToChars k.natAbs) = (true, natToChars k.natAbs) := by
        simp [signSplit]
      rw [hi]
      simp only [jsNumberEval, htrim, hrp, hss]
      rw [if_neg (by simp)]
      simp only [Bool.false_eq_true, if_false]
      rw [if_neg hinf, parseDecNum_natToChars, mkJsNum_int]
      simp only [if_true, JsNumV.fin.injEq]
      omega
    · have hi : intToChars k = natToChars k.natAbs := by rw [intToChars, if_neg hneg]
      have htrim : jsTrim (natToChars k.natAbs) = natToChars k.natAbs := by
        apply jsTrim_eq_self_forall
        intro c hc
        exact (hdigit_facts c hc).2
      have hh0 : c0 ≠ '0' := by rw [hc0]; exact digitChar_ne_zero_of_pos m hm1 hm2
      have hrp : hasRadixPrefix (natToChars k.natAbs) = false := by
        apply hasRadixPrefix_false_head
        intro c h
        rw [hcons] at h
        simp at h
        rw [← h]; exact hh0
      have hcm : c0 ≠ '-' ∧ c0 ≠ '+' := by
        rw [hc0]
        exact ⟨(digitChar_facts m hm2).2.2.2.2.2.2.2.1,
          (digitChar_facts m hm2).2.2.2.2.2.2.2.2.1⟩
      have hss : signSplit (natToChars k.natAbs) = (false, natToChars k.natAbs) := by
        rw [hcons, signSplit]
        simp [hcm.1, hcm.2]
      rw [hi]
      simp only [jsNumberEval, htrim, hrp, hss]
      rw [if_neg hne]
      simp only [Bool.false_eq_true, if_false]
      rw [if_neg hinf, parseDecNum_natToChars, mkJsNum_int]
      simp only [Bool.false_eq_true, if_false, JsNumV.fin.injEq]
      omega

theorem parseMaybeNumber_intToChars (k : Int) :
    parseMaybeNumber (intToChars k) = .num k := by
  simp [parseMaybeNumber, jsNumberEval_intToChars]

theorem parseMaybeNumber_str (s : List Char) (h : jsIsFinite (jsNumberEval s) = false) :
    parseMaybeNumber s = .str s := by
  unfold parseMaybeNumber
  cases hv : jsNumberEval s <;> rw [hv] at h <;> simp [jsIsFinite] at h ⊢

theorem escapeStr_append (a b : List Char) :
    escapeStr (a ++ b) = escapeStr a ++ escapeStr b := by
  induction a with
  | nil => rfl
  | cons c rest ih => simp [escapeStr, ih]

theorem replaceAllF_nil (fuel : Nat) (pat rep : List Char) :
    replaceAllF fuel pat rep [] = [] := by
  cases fuel <;> rfl

theorem escapeStr_plain_cons (c : Char) (s : List Char) (h1 : c ≠ bslash)
    (h2 : c ≠ dquote) (h3 : c ≠ '\n') (h4 : c ≠ '\r') :
    escapeStr (c :: s) = c :: escapeStr s := by
  simp [escapeStr, h1, h2, h3, h4]

theorem replaceAllF_undquote : ∀ (s : List Char) (fuel : Nat), bslash ∉ s →
    '\n' ∉ s → '\r' ∉ s → (escapeStr s).length ≤ fuel →
    replaceAllF fuel [bslash, dquote] [dquote] (escapeStr s) = s := by
  intro s
  induction s with
  | nil => intro fuel _ _ _ _; exact replaceAllF_nil fuel _ _
  | cons c s ih =>
      intro fuel hb hn hr hlen
      have hb' : bslash ∉ s := fun h => hb (List.mem_cons_of_mem _ h)
      have hn' : '\n' ∉ s := fun h => hn (List.mem_cons_of_mem _ h)
      have hr' : '\r' ∉ s := fun h => hr (List.mem_cons_of_mem _ h)
      have hcb : c ≠ bslash := fun h => hb (h ▸ List.mem_cons_self _ _)
      have hcn : c ≠ '\n' := fun h => hn (h ▸ List.mem_cons_self _ _)
      have hcr : c ≠ '\r' := fun h => hr (h ▸ List.mem_cons_self _ _)
      by_cases hcq : c = dquote
      · subst hcq
        have he : escapeStr (dquote :: s) = bslash :: dquote :: escapeStr s := by
          simp [escapeStr, hcb]
        rw [he] at hlen ⊢
        simp only [List.length_cons] at hlen
        obtain ⟨f, rfl⟩ : ∃ f, fuel = f + 1 := ⟨fuel - 1, by omega⟩
        rw [replaceAllF]
        rw [if_pos (by simp)]
        have hd : (bslash :: dquote :: escapeStr s).drop 2 = escapeStr s := rfl
        rw [show ([bslash, dquote] : List Char).length = 2 from rfl, hd]
        rw [ih f hb' hn' hr' (by omega)]
        rfl
      · rw [escapeStr_plain_cons c s hcb hcq hcn hcr] at hlen ⊢
        simp only [List.length_cons] at hlen
        obtain ⟨f, rfl⟩ : ∃ f, fuel = f + 1 := ⟨fuel - 1, by omega⟩
        rw [replaceAllF]
        rw [if_neg (by simp [List.cons_prefix_cons]; intro h; exact absurd h.symm hcb)]
        rw [ih f hb' hn' hr' (by omega)]

theorem replaceAllF_nobslash : ∀ (s : List Char) (fuel : Nat) (rep : List Char),
    bslash ∉ s → replaceAllF fuel [bslash, squote] rep s = s := by
  intro s
  induction s with
  | nil => intro fuel rep _; exact replaceAllF_nil fuel _ _
  | cons c s ih =>
      intro fuel rep hb
      have hb' : bslash ∉ s := fun h => hb (List.mem_cons_of_mem _ h)
      have hcb : c ≠ bslash := fun h => hb (h ▸ List.mem_cons_self _ _)
      cases fuel with
      | zero => rfl
      | succ f =>
          rw [replaceAllF]
          rw [if_neg (by simp [List.cons_prefix_cons]; intro h; exact absurd h.symm hcb)]
          rw [ih f rep hb']

theorem unescape_escape (s : List Char) (hb : bslash ∉ s) (hn : '\n' ∉ s)
    (hr : '\r' ∉ s) :
    replaceAll [bslash, squote] [squote]
      (replaceAll [bslash, dquote] [dquote] (escapeStr s)) = s := by
  unfold replaceAll
  rw [replaceAllF_undquote s (escapeStr s).length hb hn hr (le_refl _)]
  rw [replaceAllF_nobslash s s.length [squote] hb]

theorem getLast?_append_ne_nil (l r : List Char) (h : r ≠ []) :
    (l ++ r).getLast? = r.getLast? := by
  rw [List.getLast?_append]
  cases hr : r.getLast? with
  | none => exact absurd (List.getLast?_eq_none_iff.mp hr) h
  | some a => rfl

theorem head?_mem_chr {l : List Char} {c : Char} (h : l.head? = some c) : c ∈ l := by
  cases l with
  | nil => simp at h
  | cons a t =>
      simp at h
      rw [← h]
      exact List.mem_cons_self _ _

theorem getLast?_mem_chr {l : List Char} {c : Char} (h : l.getLast? = some c) :
    c ∈ l := by
  have h2 : l.reverse.head? = some c := by rw [List.head?_reverse]; exact h
  exact List.mem_reverse.mp (head?_mem_chr h2)

theorem intToChars_mem_shape (n : Int) (c : Char) (hc : c ∈ intToChars n) :
    c = '-' ∨ ∃ m, m < 10 ∧ c = digitChar m := by
  unfold intToChars at hc
  by_cases h : n < 0
  · rw [if_pos h] at hc
    rcases List.mem_cons.mp hc with rfl | hc
    · exact Or.inl rfl
    · exact Or.inr (natToCharsF_mem_digit _ _ c (by omega) hc)
  · rw [if_neg h] at hc
    exact Or.inr (natToCharsF_mem_digit _ _ c (by omega) hc)

theorem intToChars_facts (n : Int) (c : Char) (hc : c ∈ intToChars n) :
    isWsB c = false ∧ c ≠ dquote ∧ c ≠ squote ∧ c ≠ '\n' ∧ c ≠ 'd' := by
  rcases intToChars_mem_shape n c hc with rfl | ⟨m, hm, rfl⟩
  · exact ⟨by decide, by decide, by decide, by decide, by decide⟩
  · obtain ⟨_, f2, f3, f4, _, f6, f7, _⟩ := digitChar_facts m hm
    exact ⟨f2, f3, f4, f6, f7⟩

theorem intToChars_ne_nil (n : Int) : intToChars n ≠ [] := by
  unfold intToChars
  by_cases h : n < 0
  · rw [if_pos h]; exact List.cons_ne_nil _ _
  · rw [if_neg h]; exact natToCharsF_ne_nil _ _ (by omega)

theorem dateShapedKey_parts (k : List Char) (hk : isDateShapedKey k = true) :
    k ≠ [] ∧ ∀ c ∈ k, isDateKeyChar c = true := by
  simp only [isDateShapedKey, Bool.and_eq_true, List.all_eq_true, decide_eq_true_eq] at hk
  obtain ⟨⟨⟨hlen, hall⟩, _⟩, _⟩ := hk
  refine ⟨?_, hall⟩
  intro h
  rw [h] at hlen
  simp at hlen

theorem quotedKeyMatch_entry (k w : List Char) (hk : isDateShapedKey k = true) :
    quotedKeyMatch (dquote :: (k ++ dquote :: ':' :: ' ' :: w)) = some (k, ' ' :: w) := by
  obtain ⟨hkne, hall⟩ := dateShapedKey_parts k hk
  have htw : (k ++ dquote :: ':' :: ' ' :: w).takeWhile
      (fun c => decide (c ≠ dquote ∧ c ≠ squote)) = k := by
    rw [takeWhile_append_all k _ ?_]
    · simp [List.takeWhile]
    · intro c hc
      obtain ⟨f1, f2, _⟩ := dateKeyChar_facts c (hall c hc)
      simp [f1, f2]
  unfold quotedKeyMatch
  dsimp only
  rw [if_pos (Or.inl rfl)]
  rw [htw]
  rw [if_neg hkne]
  rw [List.drop_left k (dquote :: ':' :: ' ' :: w)]
  dsimp only
  simp [List.dropWhile, isWsB]

theorem isDigitB_facts (c : Char) (h : isDigitB c = true) : c ≠ '-' ∧ c ≠ '+' := by
  simp only [isDigitB, Bool.or_eq_true, decide_eq_true_eq] at h
  rcases h with ((((((((h | h) | h) | h) | h) | h) | h) | h) | h) | h <;> subst h <;>
    exact ⟨by decide, by decide⟩

theorem digitChar_not_radix (d : Nat) (h : d < 10) :
    digitChar d ≠ 'x' ∧ digitChar d ≠ 'X' ∧ digitChar d ≠ 'b' ∧ digitChar d ≠ 'B' ∧
      digitChar d ≠ 'o' ∧ digitChar d ≠ 'O' := by
  interval_cases d <;>
    exact ⟨by decide, by decide, by decide, by decide, by decide, by decide⟩

theorem hasRadixPrefix_false_mem (t : List Char)
    (h : ∀ c ∈ t, c ≠ 'x' ∧ c ≠ 'X' ∧ c ≠ 'b' ∧ c ≠ 'B' ∧ c ≠ 'o' ∧ c ≠ 'O') :
    hasRadixPrefix t = false := by
  match t with
  | [] => rfl
  | [c] => rfl
  | c :: x :: rest =>
      obtain ⟨h1, h2, h3, h4, h5, h6⟩ := h x (by simp)
      simp [hasRadixPrefix, h1, h2, h3, h4, h5, h6]

theorem digitsVal_replicate_zero (n : Nat) (l : List Char) :
    digitsVal (List.replicate n '0' ++ l) = digitsVal l := by
  induction n with
  | zero => rfl
  | succ k ih =>
      rw [List.replicate_succ, List.cons_append]
      rw [show digitsVal ('0' :: (List.replicate k '0' ++ l))
          = digitsVal (List.replicate k '0' ++ l) from rfl]
      exact ih

theorem stripTens_of_nondiv : ∀ (fuel : Nat) (m e : Int), m.emod 10 ≠ 0 →
    stripTens fuel m e = (m, e) := by
  intro fuel m e h
  cases fuel with
  | zero => rfl
  | succ f =>
      simp only [stripTens]
      rw [if_neg (fun hc => h hc.2)]

theorem mkJsNum_canon (m e : Int) (neg : Bool) (hsgn : neg = true ↔ m < 0)
    (he : e < 0) (hm : m ≠ 0) (hd : m.emod 10 ≠ 0) :
    mkJsNum neg m.natAbs e = .finNonInt m e := by
  simp only [mkJsNum]
  have hmm : (if neg = true then -(m.natAbs : Int) else (m.natAbs : Int)) = m := by
    cases neg
    · have h2 : ¬ m < 0 := fun hlt => by simpa using hsgn.mpr hlt
      simp only [Bool.false_eq_true, if_false]
      omega
    · have h2 : m < 0 := hsgn.mp rfl
      simp only [if_true]
      omega
  rw [hmm, stripTens_of_nondiv (m.natAbs + 1) m e hd]
  show (if m = 0 then JsNumV.fin 0
    else if (0 : Int) ≤ e then JsNumV.fin (m * (10 : Int) ^ e.toNat)
    else JsNumV.finNonInt m e) = JsNumV.finNonInt m e
  rw [if_neg hm, if_neg (by omega)]

theorem parseDecNum_point (neg : Bool) (a b : List Char)
    (ha : ∀ c ∈ a, isDigitB c = true) (hb : ∀ c ∈ b, isDigitB c = true)
    (hane : a ≠ []) :
    parseDecNum neg (a ++ '.' :: b)
      = mkJsNum neg (digitsVal (a ++ b)) (-(b.length : Int)) := by
  have htw : (a ++ '.' :: b).takeWhile isDigitB = a := by
    rw [takeWhile_append_all a _ ha, List.takeWhile_cons, if_neg (by decide)]
    simp
  have htb : b.takeWhile isDigitB = b := takeWhile_forall_true b hb
  simp only [parseDecNum, htw, List.drop_left]
  simp [htb, List.drop_length, hane]

theorem nonIntChars_ne_nil (m e : Int) : nonIntChars m e ≠ [] := by
  simp only [nonIntChars]
  split_ifs <;> simp

theorem nonIntChars_mem_shape (m e : Int) (c : Char) (hc : c ∈ nonIntChars m e) :
    c = '-' ∨ c = '.' ∨ ∃ d, d < 10 ∧ c = digitChar d := by
  have hds : ∀ x ∈ natToChars m.natAbs, ∃ d, d < 10 ∧ x = digitChar d := by
    intro x hx
    exact natToCharsF_mem_digit _ _ x (by omega) hx
  have hA : ∀ x ∈ List.take ((natToChars m.natAbs).length - (-e).toNat)
        (natToChars m.natAbs) ++
      '.' :: List.drop ((natToChars m.natAbs).length - (-e).toNat) (natToChars m.natAbs),
      x = '-' ∨ x = '.' ∨ ∃ d, d < 10 ∧ x = digitChar d := by
    intro x hx
    rw [List.mem_append, List.mem_cons] at hx
    rcases hx with hx | hx | hx
    · exact Or.inr (Or.inr (hds x (List.take_subset _ _ hx)))
    · exact Or.inr (Or.inl hx)
    · exact Or.inr (Or.inr (hds x (List.drop_subset _ _ hx)))
  have hB : ∀ x ∈ ('0' :: '.' :: List.replicate
        ((-e).toNat - (natToChars m.natAbs).length) '0') ++ natToChars m.natAbs,
      x = '-' ∨ x = '.' ∨ ∃ d, d < 10 ∧ x = digitChar d := by
    intro x hx
    rw [List.mem_append, List.mem_cons, List.mem_cons] at hx
    rcases hx with (hx | hx | hx) | hx
    · exact Or.inr (Or.inr ⟨0, by omega, by rw [hx]; decide⟩)
    · exact Or.inr (Or.inl hx)
    · exact Or.inr (Or.inr ⟨0, by omega, by rw [List.eq_of_mem_replicate hx]; decide⟩)
    · exact Or.inr (Or.inr (hds x hx))
  simp only [nonIntChars] at hc
  by_cases h1 : m < 0
  · rw [if_pos h1] at hc
    rcases List.mem_cons.mp hc with rfl | hc2
    · exact Or.inl rfl
    · by_cases h2 : (-e).toNat < (natToChars m.natAbs).length
      · rw [if_pos h2] at hc2
        exact hA c hc2
      · rw [if_neg h2] at hc2
        exact hB c hc2
  · rw [if_neg h1] at hc
    by_cases h2 : (-e).toNat < (natToChars m.natAbs).length
    · rw [if_pos h2] at hc
      exact hA c hc
    · rw [if_neg h2] at hc
      exact hB c hc

theorem nonIntChars_facts (m e : Int) (c : Char) (hc : c ∈ nonIntChars m e) :
    isWsB c = false ∧ c ≠ dquote ∧ c ≠ squote ∧ c ≠ '\n' ∧ c ≠ 'd' := by
  rcases nonIntChars_mem_shape m e c hc with rfl | rfl | ⟨d, hd10, rfl⟩
  · exact ⟨by decide, by decide, by decide, by decide, by decide⟩
  · exact ⟨by decide, by decide, by decide, by decide, by decide⟩
  · obtain ⟨_, f2, f3, f4, _, f6, f7, _⟩ := digitChar_facts d hd10
    exact ⟨f2, f3, f4, f6, f7⟩

theorem nonIntChars_not_radix (m e : Int) (c : Char) (hc : c ∈ nonIntChars m e) :
    c ≠ 'x' ∧ c ≠ 'X' ∧ c ≠ 'b' ∧ c ≠ 'B' ∧ c ≠ 'o' ∧ c ≠ 'O' := by
  rcases nonIntChars_mem_shape m e c hc with rfl | rfl | ⟨d, hd10, rfl⟩
  · exact ⟨by decide, by decide, by decide, by decide, by decide, by decide⟩
  · exact ⟨by decide, by decide, by decide, by decide, by decide, by decide⟩
  · exact digitChar_not_radix d hd10

theorem jsNumberEval_nonIntChars (m e : Int) (he : e < 0) (hm : m ≠ 0)
    (hd : m.emod 10 ≠ 0) :
    jsNumberEval (nonIntChars m e) = .finNonInt m e := by
  have hdsval : digitsVal (natToChars m.natAbs) = m.natAbs :=
    digitsVal_natToCharsF (m.natAbs + 1) m.natAbs (by omega)
  have hdsd : ∀ c ∈ natToChars m.natAbs, isDigitB c = true := by
    intro c hc
    obtain ⟨d, hd10, rfl⟩ := natToCharsF_mem_digit _ _ c (by omega) hc
    exact (digitChar_facts d hd10).1
  obtain ⟨a, b, hnic, ha, hb, hane, hval, hlen⟩ :
      ∃ a b, nonIntChars m e = (if m < 0 then '-' :: (a ++ '.' :: b) else a ++ '.' :: b)
        ∧ (∀ c ∈ a, isDigitB c = true) ∧ (∀ c ∈ b, isDigitB c = true) ∧ a ≠ []
        ∧ digitsVal (a ++ b) = m.natAbs ∧ b.length = (-e).toNat := by
    by_cases hcase : (-e).toNat < (natToChars m.natAbs).length
    · refine ⟨(natToChars m.natAbs).take ((natToChars m.natAbs).length - (-e).toNat),
        (natToChars m.natAbs).drop ((natToChars m.natAbs).length - (-e).toNat),
        ?_, ?_, ?_, ?_, ?_, ?_⟩
      · simp only [nonIntChars]
        rw [if_pos hcase]
      · exact fun c hc => hdsd c (List.take_subset _ _ hc)
      · exact fun c hc => hdsd c (List.drop_subset _ _ hc)
      · apply List.ne_nil_of_length_pos
        rw [List.length_take]
        omega
      · rw [List.take_append_drop]
        exact hdsval
      · rw [List.length_drop]
        omega
    · refine ⟨['0'],
        List.replicate ((-e).toNat - (natToChars m.natAbs).length) '0'
          ++ natToChars m.natAbs, ?_, ?_, ?_, ?_, ?_, ?_⟩
      · simp only [nonIntChars]
        rw [if_neg hcase]
        have hBeq : ('0' :: '.' :: List.replicate
              ((-e).toNat - (natToChars m.natAbs).length) '0') ++ natToChars m.natAbs
            = ['0'] ++ '.' :: (List.replicate
              ((-e).toNat - (natToChars m.natAbs).length) '0' ++ natToChars m.natAbs) := by
          simp
        rw [hBeq]
      · intro c hc
        simp only [List.mem_singleton] at hc
        rw [hc]; decide
      · intro c hc
        rw [List.mem_append] at hc
        rcases hc with hc | hc
        · rw [List.eq_of_mem_replicate hc]; decide
        · exact hdsd c hc
      · exact List.cons_ne_nil _ _
      · rw [show (['0'] : List Char) ++ (List.replicate
            ((-e).toNat - (natToChars m.natAbs).length) '0' ++ natToChars m.natAbs)
          = List.replicate 1 '0' ++ (List.replicate
            ((-e).toNat - (natToChars m.natAbs).length) '0' ++ natToChars m.natAbs) from rfl,
          digitsVal_replicate_zero, digitsVal_replicate_zero]
        exact hdsval
      · rw [List.length_append, List.length_replicate]
        omega
  have hexp : -((b.length : Nat) : Int) = e := by
    rw [hlen]
    omega
  by_cases hneg : m < 0
  · have hmem2 : ∀ c ∈ '-' :: (a ++ '.' :: b), c ∈ nonIntChars m e := by
      intro c hc
      rw [hnic, if_pos hneg]
      exact hc
    have htrimX : jsTrim ('-' :: (a ++ '.' :: b)) = '-' :: (a ++ '.' :: b) :=
      jsTrim_eq_self_forall _ (fun c hc => (nonIntChars_facts m e c (hmem2 c hc)).1)
    have hrpX : hasRadixPrefix ('-' :: (a ++ '.' :: b)) = false :=
      hasRadixPrefix_false_mem _ (fun c hc => nonIntChars_not_radix m e c (hmem2 c hc))
    have hssX : signSplit ('-' :: (a ++ '.' :: b)) = (true, a ++ '.' :: b) := by
      simp [signSplit]
    have hinfX : a ++ '.' :: b ≠ "Infinity".toList := by
      intro heq
      have hI : 'I' ∈ a ++ '.' :: b := by rw [heq]; decide
      rcases nonIntChars_mem_shape m e 'I' (hmem2 'I' (List.mem_cons_of_mem _ hI))
        with h | h | ⟨d, hd10, h⟩
      · exact absurd h (by decide)
      · exact absurd h (by decide)
      · exact absurd h.symm (digitChar_facts d hd10).2.2.2.2.2.2.2.2.2.1
    rw [hnic, if_pos hneg]
    simp only [jsNumberEval, htrimX, hrpX, hssX]
    rw [if_neg (by simp)]
    simp only [Bool.false_eq_true, if_false]
    rw [if_neg hinfX, parseDecNum_point true a b ha hb hane, hval, hexp]
    exact mkJsNum_canon m e true ⟨fun _ => hneg, fun _ => rfl⟩ he hm hd
  · have hmem2 : ∀ c ∈ a ++ '.' :: b, c ∈ nonIntChars m e := by
      intro c hc
      rw [hnic, if_neg hneg]
      exact hc
    have htrimX : jsTrim (a ++ '.' :: b) = a ++ '.' :: b :=
      jsTrim_eq_self_forall _ (fun c hc => (nonIntChars_facts m e c (hmem2 c hc)).1)
    have hrpX : hasRadixPrefix (a ++ '.' :: b) = false :=
      hasRadixPrefix_false_mem _ (fun c hc => nonIntChars_not_radix m e c (hmem2 c hc))
    obtain ⟨c0, a2, rfl⟩ : ∃ c0 a2, a = c0 :: a2 := by
      cases ha2 : a with
      | nil => exact absurd ha2 hane
      | cons x y => exact ⟨x, y, rfl⟩
    have hc0d : isDigitB c0 = true := ha c0 (List.mem_cons_self _ _)
    have hssX : signSplit ((c0 :: a2) ++ '.' :: b) = (false, (c0 :: a2) ++ '.' :: b) := by
      rw [List.cons_append, signSplit]
      simp [(isDigitB_facts c0 hc0d).1, (isDigitB_facts c0 hc0d).2]
    have hinfX : (c0 :: a2) ++ '.' :: b ≠ "Infinity".toList := by
      intro heq
      have hI : 'I' ∈ (c0 :: a2) ++ '.' :: b := by rw [heq]; decide
      rcases nonIntChars_mem_shape m e 'I' (hmem2 'I' hI) with h | h | ⟨d, hd10, h⟩
      · exact absurd h (by decide)
      · exact absurd h (by decide)
      · exact absurd h.symm (digitChar_facts d hd10).2.2.2.2.2.2.2.2.2.1
    rw [hnic, if_neg hneg]
    simp only [jsNumberEval, htrimX, hrpX, hssX]
    rw [if_neg (by simp)]
    simp only [Bool.false_eq_true, if_false]
    rw [if_neg hinfX, parseDecNum_point false (c0 :: a2) b ha hb hane, hval, hexp]
    exact mkJsNum_canon m e false ⟨fun h => absurd h (by simp), fun h => absurd h hneg⟩
      he hm hd

theorem parseMaybeNumber_nonIntChars (m e : Int) (he : e < 0) (hm : m ≠ 0)
    (hd : m.emod 10 ≠ 0) :
    parseMaybeNumber (nonIntChars m e) = .numNonInt m e := by
  simp [parseMaybeNumber, jsNumberEval_nonIntChars m e he hm hd]

theorem stripQuoteUnescape_nonint (m e : Int) :
    stripQuoteUnescape (nonIntChars m e) = nonIntChars m e := by
  unfold stripQuoteUnescape
  rw [if_neg]
  intro hcond
  have hmem : ∀ c, (nonIntChars m e).head? = some c → c ≠ dquote ∧ c ≠ squote := by
    intro c hc
    exact ⟨(nonIntChars_facts m e c (head?_mem_chr hc)).2.1,
      (nonIntChars_facts m e c (head?_mem_chr hc)).2.2.1⟩
  rcases hcond with ⟨h1, _⟩ | ⟨h1, _⟩
  · exact absurd rfl (hmem dquote h1).1
  · exact absurd rfl (hmem squote h1).2

theorem valueText_ne_nil (v : TValue) (hv : roundTripValueOk v) :
    entryValueText v ≠ [] := by
  cases v with
  | num n => exact intToChars_ne_nil n
  | numNonInt m e => exact nonIntChars_ne_nil m e
  | str s => exact List.cons_ne_nil _ _

theorem stripQuoteUnescape_num (n : Int) :
    stripQuoteUnescape (intToChars n) = intToChars n := by
  unfold stripQuoteUnescape
  rw [if_neg]
  intro hcond
  have hmem : ∀ c, (intToChars n).head? = some c → c ≠ dquote ∧ c ≠ squote := by
    intro c hc
    exact ⟨(intToChars_facts n c (head?_mem_chr hc)).2.1,
      (intToChars_facts n c (head?_mem_chr hc)).2.2.1⟩
  rcases hcond with ⟨h1, _⟩ | ⟨h1, _⟩
  · exact absurd rfl (hmem dquote h1).1
  · exact absurd rfl (hmem squote h1).2

theorem stripQuoteUnescape_str (s : List Char) (hb : bslash ∉ s) (hn : '\n' ∉ s)
    (hr : '\r' ∉ s) :
    stripQuoteUnescape (dquote :: (escapeStr s ++ [dquote])) = s := by
  unfold stripQuoteUnescape
  rw [if_pos]
  · have hdrop : (dquote :: (escapeStr s ++ [dquote])).drop 1 = escapeStr s ++ [dquote] := rfl
    rw [hdrop, List.dropLast_concat]
    exact unescape_escape s hb hn hr
  · refine Or.inl ⟨rfl, ?_⟩
    rw [show dquote :: (escapeStr s ++ [dquote]) = (dquote :: escapeStr s) ++ [dquote] from rfl]
    exact List.getLast?_concat _

theorem decode_entryValueText (v : TValue) (hv : roundTripValueOk v) :
    parseMaybeNumber (stripQuoteUnescape (entryValueText v)) = v := by
  cases v with
  | num n =>
      rw [show entryValueText (.num n) = intToChars n from rfl, stripQuoteUnescape_num,
        parseMaybeNumber_intToChars]
  | numNonInt m e =>
      obtain ⟨he, hm, hd⟩ := hv
      rw [show entryValueText (.numNonInt m e) = nonIntChars m e from rfl,
        stripQuoteUnescape_nonint, parseMaybeNumber_nonIntChars m e he hm hd]
  | str s =>
      obtain ⟨hfin, hb, hn, hr, _⟩ := hv
      rw [show entryValueText (.str s) = dquote :: (escapeStr s ++ [dquote]) from rfl,
        stripQuoteUnescape_str s hb hn hr, parseMaybeNumber_str s hfin]

theorem processLine_entryLineCore (acc : List (List Char × TValue)) (k : List Char)
    (v : TValue) (hk : isDateShapedKey k = true) (hv : roundTripValueOk v) :
    processLine acc (entryLineCore k v) = setAssoc acc k v := by
  obtain ⟨hkne, hall⟩ := dateShapedKey_parts k hk
  have hkws : ∀ c ∈ k, isWsB c = false := fun c hc =>
    (dateKeyChar_facts c (hall c hc)).2.2.1
  have htrimk : jsTrim k = k := jsTrim_eq_self_forall k hkws
  have hvne : entryValueText v ≠ [] := valueText_ne_nil v hv
  have hvhead : ∃ c, (entryValueText v).head? = some c ∧ isWsB c = false := by
    cases v with
    | num n =>
        cases hh : (intToChars n).head? with
        | none => exact absurd (List.head?_eq_none_iff.mp hh) (intToChars_ne_nil n)
        | some c => exact ⟨c, hh, (intToChars_facts n c (head?_mem_chr hh)).1⟩
    | numNonInt m e =>
        cases hh : (nonIntChars m e).head? with
        | none => exact absurd (List.head?_eq_none_iff.mp hh) (nonIntChars_ne_nil m e)
        | some c => exact ⟨c, hh, (nonIntChars_facts m e c (head?_mem_chr hh)).1⟩
    | str s => exact ⟨dquote, rfl, by decide⟩
  have hvlast : ∃ c, (entryValueText v).getLast? = some c ∧ isWsB c = false := by
    cases v with
    | num n =>
        cases hgl : (intToChars n).getLast? with
        | none => exact absurd (List.getLast?_eq_none_iff.mp hgl) (intToChars_ne_nil n)
        | some c => exact ⟨c, hgl, (intToChars_facts n c (getLast?_mem_chr hgl)).1⟩
    | numNonInt m e =>
        cases hgl : (nonIntChars m e).getLast? with
        | none => exact absurd (List.getLast?_eq_none_iff.mp hgl) (nonIntChars_ne_nil m e)
        | some c => exact ⟨c, hgl, (nonIntChars_facts m e c (getLast?_mem_chr hgl)).1⟩
    | str s =>
        refine ⟨dquote, ?_, by decide⟩
        rw [show entryValueText (.str s) = (dquote :: escapeStr s) ++ [dquote] from rfl]
        exact List.getLast?_concat _
  have hTalt : dquote :: (k ++ dquote :: ':' :: ' ' :: entryValueText v)
      = (dquote :: (k ++ [dquote, ':', ' '])) ++ entryValueText v := by
    simp
  have hTlast : (dquote :: (k ++ dquote :: ':' :: ' ' :: entryValueText v)).getLast?
      = (entryValueText v).getLast? := by
    rw [hTalt]
    exact getLast?_append_ne_nil _ _ hvne
  have hTtrim : jsTrim (dquote :: (k ++ dquote :: ':' :: ' ' :: entryValueText v))
      = dquote :: (k ++ dquote :: ':' :: ' ' :: entryValueText v) := by
    apply jsTrim_eq_self_ends
    · intro c hc
      simp at hc
      rw [← hc]
      decide
    · intro c hc
      rw [hTlast] at hc
      obtain ⟨c2, h1, h2⟩ := hvlast
      rw [h1] at hc
      rw [Option.some.injEq] at hc
      rwa [hc] at h2
  have hlinetrim : jsTrim (entryLineCore k v)
      = dquote :: (k ++ dquote :: ':' :: ' ' :: entryValueText v) := by
    rw [entryLineCore,
      show (' ' :: ' ' :: dquote :: (k ++ dquote :: ':' :: ' ' :: entryValueText v))
        = ' ' :: (' ' :: dquote :: (k ++ dquote :: ':' :: ' ' :: entryValueText v)) from rfl,
      jsTrim_cons_ws _ _ (by decide), jsTrim_cons_ws _ _ (by decide), hTtrim]
  have hvtrim : jsTrim (' ' :: entryValueText v) = entryValueText v := by
    rw [jsTrim_cons_ws _ _ (by decide)]
    apply jsTrim_eq_self_ends
    · intro c hc
      obtain ⟨c2, h1, h2⟩ := hvhead
      rw [h1, Option.some.injEq] at hc
      rwa [hc] at h2
    · intro c hc
      obtain ⟨c2, h1, h2⟩ := hvlast
      rw [h1, Option.some.injEq] at hc
      rwa [hc] at h2
  unfold processLine
  rw [hlinetrim]
  rw [if_neg (List.cons_ne_nil _ _)]
  rw [if_neg (by simp; decide)]
  rw [if_neg (by intro h; rw [List.cons.injEq] at h; exact absurd h.1 (by decide))]
  rw [quotedKeyMatch_entry k (entryValueText v) hk]
  dsimp only
  rw [htrimk, hvtrim, decode_entryValueText v hv]

theorem splitLines_append_newline (x y : List Char) (h : '\n' ∉ x) :
    splitLines (x ++ '\n' :: y) = x :: splitLines y := by
  induction x with
  | nil => simp [splitLines]
  | cons c x ih =>
      have hc : c ≠ '\n' := fun hh => h (hh ▸ List.mem_cons_self _ _)
      have h2 : '\n' ∉ x := fun hh => h (List.mem_cons_of_mem _ hh)
      rw [List.cons_append, splitLines, ih h2]
      simp [hc]

theorem splitLines_entry_lines : ∀ (lines : List (List Char)),
    (∀ l ∈ lines, '\n' ∉ l) →
    splitLines (lines.flatMap (fun l => l ++ ['\n'])) = lines ++ [[]] := by
  intro lines
  induction lines with
  | nil => intro h; rfl
  | cons l rest ih =>
      intro h
      rw [List.flatMap_cons, List.append_assoc,
        show ((['\n'] : List Char) ++ rest.flatMap (fun l => l ++ ['\n']))
          = '\n' :: rest.flatMap (fun l => l ++ ['\n']) from rfl,
        splitLines_append_newline l _ (h l (List.mem_cons_self _ _)),
        ih (fun l2 h2 => h l2 (List.mem_cons_of_mem _ h2))]
      rfl

theorem foldl_processLine_entry : ∀ (pairs : List (List Char × TValue))
    (acc : List (List Char × TValue)),
    (∀ kv ∈ pairs, isDateShapedKey kv.1 = true ∧ roundTripValueOk kv.2) →
    ((pairs.map (fun kv : List Char × TValue => entryLineCore kv.1 kv.2))
        ++ [[]]).foldl processLine acc
      = pairs.foldl (fun a kv => setAssoc a kv.1 kv.2) acc := by
  intro pairs
  induction pairs with
  | nil => intro acc _; rfl
  | cons kv rest ih =>
      intro acc h
      rw [List.map_cons, List.cons_append, List.foldl_cons, List.foldl_cons,
        processLine_entryLineCore acc kv.1 kv.2 (h kv (List.mem_cons_self _ _)).1
          (h kv (List.mem_cons_self _ _)).2,
        ih _ (fun kv2 h2 => h kv2 (List.mem_cons_of_mem _ h2))]

theorem foldl_setAssoc_append : ∀ (pairs acc : List (List Char × TValue)),
    (pairs.map Prod.fst).Nodup →
    (∀ kv ∈ pairs, lookupAssoc acc kv.1 = none) →
    pairs.foldl (fun a kv => setAssoc a kv.1 kv.2) acc = acc ++ pairs := by
  intro pairs
  induction pairs with
  | nil => intro acc _ _; simp
  | cons kv rest ih =>
      intro acc hnd hlk
      rw [List.foldl_cons,
        setAssoc_of_lookup_none acc kv.1 kv.2 (hlk kv (List.mem_cons_self _ _))]
      rw [List.map_cons, List.nodup_cons] at hnd
      rw [ih (acc ++ [(kv.1, kv.2)]) hnd.2 ?_]
      · simp
      · intro kv2 h2
        rw [lookupAssoc_append_none acc _ kv2.1 (hlk kv2 (List.mem_cons_of_mem _ h2))]
        have hne : kv.1 ≠ kv2.1 := by
          intro he
          exact hnd.1 (he ▸ List.mem_map_of_mem Prod.fst h2)
        simp [lookupAssoc, hne]

theorem length_takeWhile_le_chr (p : Char → Bool) (l : List Char) :
    (l.takeWhile p).length ≤ l.length := by
  induction l with
  | nil => simp
  | cons c rest ih =>
      rw [List.takeWhile_cons]
      split
      · simp
        omega
      · simp

theorem takeWhile_append_cons_notp (p : Char → Bool) (zs ys : List Char) (q : Char)
    (h : p q = false) : (zs ++ q :: ys).takeWhile p = zs.takeWhile p := by
  induction zs with
  | nil => simp [List.takeWhile, h]
  | cons z zs ih =>
      rw [List.cons_append, List.takeWhile_cons, List.takeWhile_cons, ih]

theorem prefix_append_cons_iff : ∀ (pat xs ys : List Char) (q : Char), q ∉ pat →
    (pat <+: (xs ++ q :: ys) ↔ pat <+: xs) := by
  intro pat
  induction pat with
  | nil => intro xs ys q h; simp
  | cons p ps ih =>
      intro xs ys q h
      have hq : q ∉ ps := fun hm => h (List.mem_cons_of_mem _ hm)
      cases xs with
      | nil =>
          have hpq : p ≠ q := fun he => h (by rw [← he]; exact List.mem_cons_self _ _)
          simp only [List.nil_append, List.cons_prefix_cons]
          constructor
          · rintro ⟨h1, _⟩
            exact absurd h1 hpq
          · intro hp
            simp at hp
      | cons x xs =>
          simp only [List.cons_append, List.cons_prefix_cons]
          rw [ih xs ys q hq]

theorem sentinelAt_cons_ne_d (c : Char) (cs : List Char) (h : c ≠ 'd') :
    sentinelAt (c :: cs) = false := by
  have hnp : ¬ ("data:".toList <+: (c :: cs)) := by
    rw [show "data:".toList = 'd' :: "ata:".toList from rfl, List.cons_prefix_cons]
    rintro ⟨h1, _⟩
    exact h h1.symm
  rw [sentinelAt, decide_eq_false hnp, Bool.false_and]

theorem sentinelAt_append_quote (xs ys : List Char) :
    sentinelAt (xs ++ dquote :: ys) = sentinelAt xs := by
  by_cases hp : "data:".toList <+: xs
  · obtain ⟨zs, hzs⟩ := hp
    rw [← hzs]
    have hp1 : "data:".toList <+: ("data:".toList ++ zs) := List.prefix_append _ _
    have hp2 : "data:".toList <+: (("data:".toList ++ zs) ++ dquote :: ys) := by
      rw [List.append_assoc]
      exact List.prefix_append _ _
    rw [sentinelAt, sentinelAt, decide_eq_true hp1, decide_eq_true hp2,
      Bool.true_and, Bool.true_and]
    have hdropA : ((("data:".toList ++ zs) ++ dquote :: ys)).drop 5 = zs ++ dquote :: ys := by
      rw [List.append_assoc, show (5 : Nat) = ("data:".toList : List Char).length from rfl]
      exact List.drop_left _ _
    have hdropB : (("data:".toList ++ zs)).drop 5 = zs := by
      rw [show (5 : Nat) = ("data:".toList : List Char).length from rfl]
      exact List.drop_left _ _
    rw [hdropA, hdropB,
      takeWhile_append_cons_notp isWsB zs ys dquote (by decide),
      List.drop_append_of_le_length (length_takeWhile_le_chr isWsB zs)]
    exact decide_eq_decide.mpr
      (prefix_append_cons_iff [lbrace, rbrace] _ ys dquote (by decide))
  · have hp2 : ¬ "data:".toList <+: (xs ++ dquote :: ys) := by
      rw [prefix_append_cons_iff _ _ _ _ (by decide)]
      exact hp
    rw [sentinelAt, sentinelAt, decide_eq_false hp, decide_eq_false hp2]
    simp

theorem containsSentinel_append_quote : ∀ (xs ys : List Char),
    containsSentinel xs = false →
    containsSentinel (xs ++ dquote :: ys) = containsSentinel ys := by
  intro xs
  induction xs with
  | nil =>
      intro ys _
      rw [List.nil_append, containsSentinel, sentinelAt_cons_ne_d _ _ (by decide)]
      simp
  | cons x xs ih =>
      intro ys h
      rw [containsSentinel] at h
      simp only [Bool.or_eq_false_iff] at h
      rw [List.cons_append, containsSentinel,
        show (x :: (xs ++ dquote :: ys)) = ((x :: xs) ++ dquote :: ys) from rfl,
        sentinelAt_append_quote (x :: xs) ys, h.1, ih ys h.2]
      simp

theorem containsSentinel_append_nod : ∀ (xs ys : List Char),
    (∀ c ∈ xs, c ≠ 'd') →
    containsSentinel (xs ++ ys) = containsSentinel ys := by
  intro xs
  induction xs with
  | nil => intro ys _; rfl
  | cons x xs ih =>
      intro ys h
      rw [List.cons_append, containsSentinel,
        sentinelAt_cons_ne_d _ _ (h x (List.mem_cons_self _ _)),
        ih ys (fun c hc => h c (List.mem_cons_of_mem _ hc))]
      simp

theorem escapeStr_no_newline : ∀ s : List Char, '\n' ∉ escapeStr s := by
  intro s
  induction s with
  | nil => simp [escapeStr]
  | cons c rest ih =>
      intro hm
      rw [escapeStr, List.mem_append] at hm
      rcases hm with hm | hm
      · by_cases h1 : c = bslash
        · rw [if_pos h1] at hm; revert hm; decide
        · rw [if_neg h1] at hm
          by_cases h2 : c = dquote
          · rw [if_pos h2] at hm; revert hm; decide
          · rw [if_neg h2] at hm
            by_cases h3 : c = '\n'
            · rw [if_pos h3] at hm; revert hm; decide
            · rw [if_neg h3] at hm
              by_cases h4 : c = '\r'
              · rw [if_pos h4] at hm; revert hm; decide
              · rw [if_neg h4] at hm
                simp at hm
                exact h3 hm.symm
      · exact ih hm

theorem valueText_no_newline (v : TValue) (hv : roundTripValueOk v) :
    '\n' ∉ entryValueText v := by
  cases v with
  | num n =>
      intro hm
      exact absurd rfl (intToChars_facts n '\n' hm).2.2.2.1
  | numNonInt m e =>
      intro hmem
      exact absurd rfl (nonIntChars_facts m e '\n' hmem).2.2.2.1
  | str s =>
      intro hm
      rcases List.mem_cons.mp hm with h | h
      · exact absurd h (by decide)
      · rw [List.mem_append] at h
        rcases h with h | h
        · exact escapeStr_no_newline s h
        · revert h; decide

theorem entryLineCore_no_newline (k : List Char) (v : TValue)
    (hk : isDateShapedKey k = true) (hv : roundTripValueOk v) :
    '\n' ∉ entryLineCore k v := by
  obtain ⟨_, hall⟩ := dateShapedKey_parts k hk
  intro hm
  rw [entryLineCore] at hm
  simp only [List.mem_cons, List.mem_append] at hm
  rcases hm with h | h | h | h | h | h | h | h
  · exact absurd h (by decide)
  · exact absurd h (by decide)
  · exact absurd h (by decide)
  · exact absurd rfl (dateKeyChar_facts '\n' (hall _ h)).2.2.2.2.2.2.1
  · exact absurd h (by decide)
  · exact absurd h (by decide)
  · exact absurd h (by decide)
  · exact valueText_no_newline v hv h

theorem valueText_sentinel_tail (v : TValue) (hv : roundTripValueOk v) (R : List Char) :
    containsSentinel (entryValueText v ++ '\n' :: R) = containsSentinel R := by
  cases v with
  | num n =>
      rw [show entryValueText (.num n) = intToChars n from rfl]
      rw [containsSentinel_append_nod (intToChars n) _
        (fun c hc => (intToChars_facts n c hc).2.2.2.2)]
      rw [containsSentinel, sentinelAt_cons_ne_d _ _ (by decide)]
      simp
  | numNonInt m e =>
      rw [show entryValueText (.numNonInt m e) = nonIntChars m e from rfl]
      rw [containsSentinel_append_nod (nonIntChars m e) _
        (fun c hc => (nonIntChars_facts m e c hc).2.2.2.2)]
      rw [containsSentinel, sentinelAt_cons_ne_d _ _ (by decide)]
      simp
  | str s =>
      obtain ⟨_, _, _, _, hsent⟩ := hv
      rw [show entryValueText (.str s) ++ '\n' :: R
          = dquote :: (escapeStr s ++ dquote :: '\n' :: R) by simp [entryValueText]]
      rw [containsSentinel, sentinelAt_cons_ne_d _ _ (by decide),
        containsSentinel_append_quote (escapeStr s) _ hsent,
        containsSentinel, sentinelAt_cons_ne_d _ _ (by decide)]
      simp

theorem containsSentinel_blocks : ∀ (pairs : List (List Char × TValue)),
    (∀ kv ∈ pairs, isDateShapedKey kv.1 = true ∧ roundTripValueOk kv.2) →
    containsSentinel (pairs.flatMap
      (fun kv : List Char × TValue => entryLine kv.1 kv.2)) = false := by
  intro pairs
  induction pairs with
  | nil => intro _; rfl
  | cons kv rest ih =>
      intro h
      obtain ⟨hk, hv⟩ := h kv (List.mem_cons_self _ _)
      obtain ⟨_, hall⟩ := dateShapedKey_parts kv.1 hk
      rw [List.flatMap_cons]
      have hsplit : entryLine kv.1 kv.2
            ++ rest.flatMap (fun kv : List Char × TValue => entryLine kv.1 kv.2)
          = (' ' :: ' ' :: dquote :: (kv.1 ++ [dquote, ':', ' ']))
            ++ (entryValueText kv.2
              ++ '\n' :: rest.flatMap (fun kv : List Char × TValue => entryLine kv.1 kv.2)) := by
        simp [entryLine, entryLineCore]
      rw [hsplit]
      rw [containsSentinel_append_nod _ _ ?_]
      · rw [valueText_sentinel_tail kv.2 hv _]
        exact ih (fun kv2 h2 => h kv2 (List.mem_cons_of_mem _ h2))
      · intro c hc
        simp only [List.mem_cons, List.mem_append] at hc
        rcases hc with h1 | h1 | h1 | h1 | h1 | h1 | h1 | h1
        · rw [h1]; decide
        · rw [h1]; decide
        · rw [h1]; decide
        · exact (dateKeyChar_facts c (hall c h1)).2.2.2.2.2.1
        · rw [h1]; decide
        · rw [h1]; decide
        · rw [h1]; decide
        · simp at h1

theorem captureLines_blocks : ∀ (pairs : List (List Char × TValue)) (fuel : Nat),
    (∀ kv ∈ pairs, isDateShapedKey kv.1 = true ∧ roundTripValueOk kv.2) →
    (pairs.flatMap (fun kv : List Char × TValue => entryLine kv.1 kv.2)).length ≤ fuel →
    captureLines fuel (pairs.flatMap (fun kv : List Char × TValue => entryLine kv.1 kv.2))
      = pairs.flatMap (fun kv : List Char × TValue => entryLine kv.1 kv.2) := by
  intro pairs
  induction pairs with
  | nil =>
      intro fuel _ _
      cases fuel <;> rfl
  | cons kv rest ih =>
      intro fuel h hlen
      obtain ⟨hk, hv⟩ := h kv (List.mem_cons_self _ _)
      rw [List.flatMap_cons] at hlen ⊢
      have hcs : entryLine kv.1 kv.2
            ++ rest.flatMap (fun kv : List Char × TValue => entryLine kv.1 kv.2)
          = ' ' :: ' ' :: (dquote :: (kv.1 ++ dquote :: ':' :: ' ' :: entryValueText kv.2)
            ++ '\n' :: rest.flatMap (fun kv : List Char × TValue => entryLine kv.1 kv.2)) := by
        simp [entryLine, entryLineCore]
      rw [hcs] at hlen ⊢
      set R := rest.flatMap (fun kv : List Char × TValue => entryLine kv.1 kv.2) with hR
      set Y := dquote :: (kv.1 ++ dquote :: ':' :: ' ' :: entryValueText kv.2) with hY
      simp only [List.length_cons, List.length_append] at hlen
      obtain ⟨f, rfl⟩ : ∃ f, fuel = f + 1 := ⟨fuel - 1, by omega⟩
      simp only [captureLines]
      have hw : (' ' :: ' ' :: (Y ++ '\n' :: R)).takeWhile isWsB = [' ', ' '] := by
        rw [List.takeWhile_cons, if_pos (by decide), List.takeWhile_cons,
          if_pos (by decide), hY, List.cons_append, List.takeWhile_cons,
          if_neg (by decide)]
      rw [hw]
      rw [if_neg (by simp)]
      have hdrop2 : (' ' :: ' ' :: (Y ++ '\n' :: R)).drop ([' ', ' '] : List Char).length
          = Y ++ '\n' :: R := rfl
      rw [hdrop2]
      have hnl : '\n' ∉ Y := by
        rw [hY]
        intro hm
        have hmem : '\n' ∈ entryLineCore kv.1 kv.2 := by
          rw [entryLineCore]
          exact List.mem_cons_of_mem _ (List.mem_cons_of_mem _ hm)
        exact entryLineCore_no_newline kv.1 kv.2 hk hv hmem
      have hl : (Y ++ '\n' :: R).takeWhile (fun c => decide (c ≠ '\n')) = Y := by
        rw [takeWhile_append_all Y _ ?_]
        · rw [List.takeWhile_cons, if_neg (by decide)]
          simp
        · intro c hc
          simp only [decide_eq_true_eq]
          intro he
          exact hnl (he ▸ hc)
      rw [hl]
      rw [if_pos (show Y ≠ [] by rw [hY]; exact List.cons_ne_nil _ _)]
      rw [List.drop_left Y ('\n' :: R)]
      show [' ', ' '] ++ Y ++ '\n' :: captureLines f R = ' ' :: ' ' :: (Y ++ '\n' :: R)
      rw [ih f (fun kv2 h2 => h kv2 (List.mem_cons_of_mem _ h2)) (by omega)]
      simp

theorem matchAfterData_entry (X : List Char) :
    matchAfterData ('\n' :: ' ' :: ' ' :: dquote :: X)
      = some (some (captureLines (' ' :: ' ' :: dquote :: X).length
            (' ' :: ' ' :: dquote :: X)),
          0 + 1 + (captureLines (' ' :: ' ' :: dquote :: X).length
            (' ' :: ' ' :: dquote :: X)).length) := by
  have hw : ('\n' :: ' ' :: ' ' :: dquote :: X).takeWhile isWsB = ['\n', ' ', ' '] := by
    rw [List.takeWhile_cons, if_pos (by decide), List.takeWhile_cons, if_pos (by decide),
      List.takeWhile_cons, if_pos (by decide), List.takeWhile_cons, if_neg (by decide)]
  have hnp : ¬ ([lbrace, rbrace] <+: dquote :: X) := by
    rw [List.cons_prefix_cons]
    rintro ⟨h1, _⟩
    exact absurd h1 (by decide)
  simp only [matchAfterData, hw]
  rw [show ('\n' :: ' ' :: ' ' :: dquote :: X).drop (['\n', ' ', ' '] : List Char).length
      = dquote :: X from rfl]
  rw [if_neg hnp]
  rw [show lastNewlinePos ['\n', ' ', ' '] = some 0 from by decide]
  rfl

theorem findDataMatch_entry (X : List Char) :
    findDataMatch ("data:\n".toList ++ (' ' :: ' ' :: dquote :: X))
      = some (some (captureLines (' ' :: ' ' :: dquote :: X).length
            (' ' :: ' ' :: dquote :: X)), 0,
          5 + (0 + 1 + (captureLines (' ' :: ' ' :: dquote :: X).length
            (' ' :: ' ' :: dquote :: X)).length)) := by
  have hwhole : "data:\n".toList ++ (' ' :: ' ' :: dquote :: X)
      = 'd' :: ('a' :: 't' :: 'a' :: ':' :: '\n' :: ' ' :: ' ' :: dquote :: X) := rfl
  have hpre : "data:".toList <+: 'd' :: ('a' :: 't' :: 'a' :: ':' :: '\n' :: ' ' :: ' ' :: dquote :: X) :=
    ⟨'\n' :: ' ' :: ' ' :: dquote :: X, rfl⟩
  rw [findDataMatch, hwhole, findDataMatchAux, if_pos hpre]
  rw [show ('d' :: ('a' :: 't' :: 'a' :: ':' :: '\n' :: ' ' :: ' ' :: dquote :: X)).drop 5
      = '\n' :: ' ' :: ' ' :: dquote :: X from rfl]
  rw [matchAfterData_entry X]

theorem containsSentinel_data_header (X : List Char)
    (hb : containsSentinel (' ' :: ' ' :: dquote :: X) = false) :
    containsSentinel ("data:\n".toList ++ (' ' :: ' ' :: dquote :: X)) = false := by
  have hsent0 : sentinelAt ('d' :: 'a' :: 't' :: 'a' :: ':' :: '\n' :: ' ' :: ' ' :: dquote :: X)
      = false := by
    rw [sentinelAt]
    have h1 : ((('d' :: 'a' :: 't' :: 'a' :: ':' :: '\n' :: ' ' :: ' ' :: dquote :: X).drop 5).drop
          ((('d' :: 'a' :: 't' :: 'a' :: ':' :: '\n' :: ' ' :: ' ' :: dquote :: X).drop 5).takeWhile
            isWsB).length)
        = dquote :: X := by
      rw [show ('d' :: 'a' :: 't' :: 'a' :: ':' :: '\n' :: ' ' :: ' ' :: dquote :: X).drop 5
          = '\n' :: ' ' :: ' ' :: dquote :: X from rfl]
      rw [List.takeWhile_cons, if_pos (by decide), List.takeWhile_cons, if_pos (by decide),
        List.takeWhile_cons, if_pos (by decide), List.takeWhile_cons, if_neg (by decide)]
      rfl
    rw [h1]
    have hnp : ¬ ([lbrace, rbrace] <+: dquote :: X) := by
      rw [List.cons_prefix_cons]
      rintro ⟨h2, _⟩
      exact absurd h2 (by decide)
    rw [decide_eq_false hnp]
    simp
  rw [show "data:\n".toList ++ (' ' :: ' ' :: dquote :: X)
      = 'd' :: 'a' :: 't' :: 'a' :: ':' :: '\n' :: ' ' :: ' ' :: dquote :: X from rfl]
  rw [containsSentinel, hsent0, Bool.false_or]
  rw [containsSentinel, sentinelAt_cons_ne_d _ _ (by decide), Bool.false_or]
  rw [containsSentinel, sentinelAt_cons_ne_d _ _ (by decide), Bool.false_or]
  rw [containsSentinel, sentinelAt_cons_ne_d _ _ (by decide), Bool.false_or]
  rw [containsSentinel, sentinelAt_cons_ne_d _ _ (by decide), Bool.false_or]
  rw [containsSentinel, sentinelAt_cons_ne_d _ _ (by decide), Bool.false_or]
  exact hb

theorem lookupAssoc_mem_keys : ∀ (m : List (List Char × TValue)) (k : List Char),
    k ∈ m.map Prod.fst → ∃ v, lookupAssoc m k = some v ∧ (k, v) ∈ m := by
  intro m
  induction m with
  | nil => intro k hk; simp at hk
  | cons kv rest ih =>
      intro k hk
      by_cases he : kv.1 = k
      · refine ⟨kv.2, ?_, ?_⟩
        · simp [lookupAssoc, he]
        · rw [← he]
          exact List.mem_cons_self _ _
      · rw [List.map_cons, List.mem_cons] at hk
        rcases hk with hk | hk
        · exact absurd hk.symm he
        · obtain ⟨v, h1, h2⟩ := ih k hk
          exact ⟨v, by simp [lookupAssoc, he, h1], List.mem_cons_of_mem _ h2⟩

theorem map_keys_lookup : ∀ (m : List (List Char × TValue)),
    (m.map Prod.fst).Nodup →
    (m.map Prod.fst).map (fun k => (k, (lookupAssoc m k).getD (.num 0))) = m := by
  intro m
  induction m with
  | nil => intro _; rfl
  | cons kv rest ih =>
      intro hnd
      rw [List.map_cons, List.map_cons] at *
      rw [List.nodup_cons] at hnd
      have h1 : lookupAssoc (kv :: rest) kv.1 = some kv.2 := by
        simp [lookupAssoc]
      rw [h1]
      have h2 : (rest.map Prod.fst).map
            (fun k => (k, (lookupAssoc (kv :: rest) k).getD (.num 0)))
          = (rest.map Prod.fst).map
            (fun k => (k, (lookupAssoc rest k).getD (.num 0))) := by
        apply List.map_congr_left
        intro k hk
        have hne : kv.1 ≠ k := fun he => hnd.1 (he ▸ hk)
        simp [lookupAssoc, hne]
      rw [h2, ih hnd.2]
      rfl

theorem parse_format_roundtrip_ne (m : List (List Char × TValue))
    (hne : m ≠ [])
    (h1 : (m.map Prod.fst).Nodup)
    (h2 : ∀ k ∈ m.map Prod.fst, isDateShapedKey k = true)
    (h3 : ∀ kv ∈ m, roundTripValueOk kv.2) :
    (parseFrontmatterData (formatDataToYaml m)).Perm m := by
  set ks := m.map Prod.fst with hks
  set pairs := (sortKeys ks).map (fun k => (k, (lookupAssoc m k).getD (.num 0))) with hpairs
  have hsortperm : (sortKeys ks).Perm ks := List.perm_insertionSort _ ks
  have hmapeq : ks.map (fun k => (k, (lookupAssoc m k).getD (.num 0))) = m :=
    map_keys_lookup m h1
  have hpairsperm : pairs.Perm m := hmapeq ▸ (hsortperm.map _)
  have hpmem : ∀ kv ∈ pairs, isDateShapedKey kv.1 = true ∧ roundTripValueOk kv.2 := by
    intro kv hkv
    rw [hpairs] at hkv
    obtain ⟨key, hkey, rfl⟩ := List.mem_map.mp hkv
    have hkeyks : key ∈ ks := (hsortperm.mem_iff).mp hkey
    obtain ⟨v, hv1, hv2⟩ := lookupAssoc_mem_keys m key hkeyks
    refine ⟨h2 key hkeyks, ?_⟩
    simp only [hv1, Option.getD_some]
    exact h3 (key, v) hv2
  have hkeyseq : pairs.map Prod.fst = sortKeys ks := by
    rw [hpairs, List.map_map]
    have hid : (Prod.fst ∘ fun k => (k, (lookupAssoc m k).getD (TValue.num 0))) = id := rfl
    rw [hid, List.map_id]
  have hpnodup : (pairs.map Prod.fst).Nodup := by
    rw [hkeyseq]
    exact (hsortperm.nodup_iff).mpr h1
  have hbody : formatDataToYaml m = "data:\n".toList
      ++ pairs.flatMap (fun kv : List Char × TValue => entryLine kv.1 kv.2) := by
    rw [formatDataToYaml, if_neg hne, hpairs, List.flatMap_map]
  obtain ⟨p0, prest, hp⟩ : ∃ p0 prest, pairs = p0 :: prest := by
    cases hpp : pairs with
    | nil =>
        exfalso
        have hlen := hpairsperm.length_eq
        rw [hpp] at hlen
        exact hne (List.length_eq_zero.mp hlen.symm)
    | cons a b => exact ⟨a, b, rfl⟩
  have hflat : pairs.flatMap (fun kv : List Char × TValue => entryLine kv.1 kv.2)
      = ' ' :: ' ' :: dquote :: ((p0.1 ++ dquote :: ':' :: ' ' :: entryValueText p0.2)
        ++ '\n' :: prest.flatMap (fun kv : List Char × TValue => entryLine kv.1 kv.2)) := by
    rw [hp, List.flatMap_cons]
    simp [entryLine, entryLineCore]
  set X := (p0.1 ++ dquote :: ':' :: ' ' :: entryValueText p0.2)
      ++ '\n' :: prest.flatMap (fun kv : List Char × TValue => entryLine kv.1 kv.2) with hX
  have hsentB : containsSentinel (' ' :: ' ' :: dquote :: X) = false := by
    rw [← hflat]
    exact containsSentinel_blocks pairs hpmem
  have hsent2 : containsSentinel ("data:\n".toList ++ (' ' :: ' ' :: dquote :: X)) = false :=
    containsSentinel_data_header X hsentB
  have hcap : captureLines (' ' :: ' ' :: dquote :: X).length (' ' :: ' ' :: dquote :: X)
      = ' ' :: ' ' :: dquote :: X := by
    rw [← hflat]
    exact captureLines_blocks pairs _ hpmem (le_refl _)
  have hlines : pairs.flatMap (fun kv : List Char × TValue => entryLine kv.1 kv.2)
      = (pairs.map (fun kv : List Char × TValue => entryLineCore kv.1 kv.2)).flatMap
        (fun l => l ++ ['\n']) := by
    conv_rhs => rw [List.flatMap_map]
    rfl
  have hnonl : ∀ l ∈ pairs.map (fun kv : List Char × TValue => entryLineCore kv.1 kv.2),
      '\n' ∉ l := by
    intro l hl
    obtain ⟨kv, hkv, rfl⟩ := List.mem_map.mp hl
    exact entryLineCore_no_newline kv.1 kv.2 (hpmem kv hkv).1 (hpmem kv hkv).2
  rw [hbody, hflat, parseFrontmatterData, findDataMatch_entry X]
  dsimp only
  rw [hsent2]
  simp only [Bool.false_eq_true, if_false]
  rw [hcap]
  rw [if_neg (List.cons_ne_nil _ _)]
  rw [← hflat, hlines, splitLines_entry_lines _ hnonl,
    foldl_processLine_entry pairs [] hpmem,
    foldl_setAssoc_append pairs [] hpnodup (fun kv _ => rfl),
    List.nil_append]
  exact hpairsperm

/-- C1 (counterexample): the round-trip law as stated fails. The value "5" is a
string free of control characters, and "2024-01-01" is a date-shaped key, but
decoding the encoded form hands the quoted value to `parseMaybeNumber`, whose
`Number("5")` coercion is finite, so the value comes back as the number 5 and
the decoded map is not the original map (not even up to order). -/
theorem C1_roundtrip_counterexample :
    ¬ (parseFrontmatterData (formatDataToYaml
        [("2024-01-01".toList, TValue.str "5".toList)])).Perm
      [("2024-01-01".toList, TValue.str "5".toList)] := by decide

/-- C1 (amended): for every ledger map with pairwise-distinct date-shaped keys
whose values are finite numbers - integral, or non-integral in the canonical
scaled-decimal representation (negative exponent, mantissa nonzero and not
divisible by ten, the model invariant for finite non-integral JS floats) - or
strings that do not coerce to a finite number, contain no backslash, newline
or carriage return, and whose escaped form does not contain the empty-ledger
sentinel pattern, decoding the encoded form (`parseFrontmatterData` after
`formatDataToYaml`) yields exactly the original key-value pairs, up to
order. -/
theorem C1_roundtrip_amended (m : List (List Char × TValue))
    (h1 : (m.map Prod.fst).Nodup)
    (h2 : ∀ k ∈ m.map Prod.fst, isDateShapedKey k = true)
    (h3 : ∀ kv ∈ m, roundTripValueOk kv.2) :
    (parseFrontmatterData (formatDataToYaml m)).Perm m := by
  rcases m with _ | ⟨kv, rest⟩
  · decide
  · exact parse_format_roundtrip_ne (kv :: rest) (List.cons_ne_nil _ _) h1 h2 h3

/-- C1 witness: the amended round-trip at the concrete three-entry ledger
\x7b "2024-01-03": 72.5, "2024-01-02": 7, "2024-01-01": "abc" \x7d (72.5 is
the canonical scaled decimal 725 * 10 ^ -1), whose hypotheses hold by
computation. -/
theorem C1_roundtrip_amended_witness :
    ((([("2024-01-03".toList, TValue.numNonInt 725 (-1)),
        ("2024-01-02".toList, TValue.num 7),
        ("2024-01-01".toList, TValue.str "abc".toList)] :
        List (List Char × TValue)).map Prod.fst).Nodup ∧
      (∀ k ∈ ([("2024-01-03".toList, TValue.numNonInt 725 (-1)),
        ("2024-01-02".toList, TValue.num 7),
        ("2024-01-01".toList, TValue.str "abc".toList)] :
        List (List Char × TValue)).map Prod.fst, isDateShapedKey k = true) ∧
      (∀ kv ∈ ([("2024-01-03".toList, TValue.numNonInt 725 (-1)),
        ("2024-01-02".toList, TValue.num 7),
        ("2024-01-01".toList, TValue.str "abc".toList)] :
        List (List Char × TValue)), roundTripValueOk kv.2)) ∧
    (parseFrontmatterData (formatDataToYaml
        [("2024-01-03".toList, TValue.numNonInt 725 (-1)),
         ("2024-01-02".toList, TValue.num 7),
         ("2024-01-01".toList, TValue.str "abc".toList)])).Perm
      [("2024-01-03".toList, TValue.numNonInt 725 (-1)),
       ("2024-01-02".toList, TValue.num 7),
       ("2024-01-01".toList, TValue.str "abc".toList)] :=
  ⟨⟨by decide, by decide, by decide⟩,
    C1_roundtrip_amended
      [("2024-01-03".toList, TValue.numNonInt 725 (-1)),
       ("2024-01-02".toList, TValue.num 7),
       ("2024-01-01".toList, TValue.str "abc".toList)]
      (by decide) (by decide) (by decide)⟩
